import Mathlib

/-!
Shallow embedding of the molminer entity reconciliation and annotation
pipeline (molminer/ChemSpot.py, molminer/Extractor.py, molminer/OSRA.py,
molminer/OPSIN.py, molminer/utils.py) together with theorems settling the
specification claims about it.

Python strings are modelled as `String` where only equality and emptiness
matter, and as `List Char` where the character-level structure matters
(regex matching, splitting, joining).  Machine-level concerns (subprocess
calls, sleeping, file IO handles) are irrelevant to the claims and are
modelled away: a written file is represented by its contents, and the two
chemical-database clients by an oracle that maps the history of issued
searches to a list of returned compound records.
-/

namespace Molminer

/-! ### Generic helpers for Python string primitives -/

/-- Python `x or y` on strings: `y` if `x` is empty, else `x`. -/
def pyOr (a b : String) : String := if a = "" then b else a

/-- Python `sep.join(l)` on `String`. -/
def joinSep (sep : String) : List String → String
  | [] => ""
  | x :: xs => xs.foldl (fun acc y => acc ++ sep ++ y) x

/-- Python ASCII whitespace (the characters matched by `\s` and stripped by
`str.strip()` for ASCII text): space, tab, newline, carriage return,
vertical tab, form feed. -/
def isPySpace (c : Char) : Bool :=
  c = ' ' || c = '\t' || c = '\n' || c = '\r' || c = '\x0b' || c = '\x0c'

/-- Python `str.strip()` on a character list. -/
def pyStrip (cs : List Char) : List Char :=
  ((cs.dropWhile isPySpace).reverse.dropWhile isPySpace).reverse

/-- Python `s.split(sep)` for a one-character separator `sep`:
`"".split(sep) = [""]`, and empty pieces are kept. -/
def splitChar (sep : Char) : List Char → List (List Char)
  | [] => [[]]
  | c :: cs =>
    if c = sep then [] :: splitChar sep cs
    else
      match splitChar sep cs with
      | p :: ps => (c :: p) :: ps
      | [] => [[c]]

/-- Python `sep.join(l)` on character lists. -/
def joinWith (sep : List Char) : List (List Char) → List Char
  | [] => []
  | [w] => w
  | w :: ws => w ++ sep ++ joinWith sep ws

/-- Decimal rendering of a natural number as a character list
(Python `str(n)` / `"{}".format(n)`). -/
def natChars (n : Nat) : List Char := (Nat.repr n).data

/-! ### IonNotationParser (ChemSpot.RE_ION / RE_CHARGE and
ChemSpot.process lines 421-448)

The ion regex is
`^\s*(?P<ion>[A-Z][a-z]?)\s*\((?P<charge>-?\+?i+\+?-?|-?\+?I+\+?-?|\d+\+|\d+-|\+\d+|-\d+|\++|-+)\)\s*$`
and the charge regex, applied with `re.search`, is
`(?P<roman>i+|I+)|(?P<digit>\d+)|(?P<signs>^\++|-+$)`. -/

def isUpperAZ (c : Char) : Bool := 'A' ≤ c && c ≤ 'Z'

def isLowerAZ (c : Char) : Bool := 'a' ≤ c && c ≤ 'z'

def isDigitCh (c : Char) : Bool := '0' ≤ c && c ≤ '9'

/-- Consume one optional occurrence of `c` (regex `c?`). -/
def chompOpt (c : Char) : List Char → List Char
  | [] => []
  | x :: xs => if x = c then xs else x :: xs

/-- Full match of the charge alternative `-?\+?N+\+?-?` where `N` is the
Roman-numeral character (`i` or `I`). -/
def altRoman (num : Char) (cs : List Char) : Bool :=
  let c2 := chompOpt '+' (chompOpt '-' cs)
  let run := c2.takeWhile (· = num)
  let c5 := chompOpt '-' (chompOpt '+' (c2.dropWhile (· = num)))
  !run.isEmpty && c5.isEmpty

/-- Full match of `\d+\+`. -/
def altDigitPlus (cs : List Char) : Bool :=
  !(cs.takeWhile isDigitCh).isEmpty && decide (cs.dropWhile isDigitCh = ['+'])

/-- Full match of `\d+-`. -/
def altDigitMinus (cs : List Char) : Bool :=
  !(cs.takeWhile isDigitCh).isEmpty && decide (cs.dropWhile isDigitCh = ['-'])

/-- Full match of `\+\d+`. -/
def altPlusDigit : List Char → Bool
  | c :: r => c = '+' && (!r.isEmpty && r.all isDigitCh)
  | [] => false

/-- Full match of `-\d+`. -/
def altMinusDigit : List Char → Bool
  | c :: r => c = '-' && (!r.isEmpty && r.all isDigitCh)
  | [] => false

/-- Full match of `\++`. -/
def altPlusRun (cs : List Char) : Bool := !cs.isEmpty && cs.all (· = '+')

/-- Full match of `-+`. -/
def altMinusRun (cs : List Char) : Bool := !cs.isEmpty && cs.all (· = '-')

/-- Full match of the whole charge alternation of `RE_ION`. -/
def isCharge (cs : List Char) : Bool :=
  altRoman 'i' cs || altRoman 'I' cs || altDigitPlus cs || altDigitMinus cs ||
  altPlusDigit cs || altMinusDigit cs || altPlusRun cs || altMinusRun cs

/-- The `\s*\((?P<charge>...)\)\s*$` tail of `RE_ION`: returns the charge
group.  The charge alternation cannot contain `)`, so the group must end at
the first `)`. -/
def ionTail (cs : List Char) : Option (List Char) :=
  match cs.dropWhile isPySpace with
  | '(' :: rest =>
    match rest.dropWhile (· ≠ ')') with
    | ')' :: tail =>
      if (tail.dropWhile isPySpace).isEmpty && isCharge (rest.takeWhile (· ≠ ')')) then
        some (rest.takeWhile (· ≠ ')'))
      else none
    | _ => none
  | _ => none

/-- `RE_ION.match`: on success returns the `ion` (element) and `charge`
groups.  The element is `[A-Z][a-z]?`; if matching with the optional
lowercase letter fails the regex engine retries without it. -/
def ionMatch (cs : List Char) : Option (List Char × List Char) :=
  match cs.dropWhile isPySpace with
  | [] => none
  | u :: rest =>
    if isUpperAZ u then
      match rest with
      | [] => none
      | l :: rest2 =>
        if isLowerAZ l then
          match ionTail rest2 with
          | some ch => some ([u, l], ch)
          | none =>
            match ionTail rest with
            | some ch => some ([u], ch)
            | none => none
        else
          match ionTail rest with
          | some ch => some ([u], ch)
          | none => none
    else none

/-- Result of `RE_CHARGE.search`: which named group matched, and its text. -/
inductive ChargeGroup
  | roman (g : List Char)
  | digit (g : List Char)
  | signs (g : List Char)
deriving DecidableEq, Repr

/-- `RE_CHARGE.search(charge)`: scan positions left to right; at each
position try `i+|I+`, then `\d+`, then `^\++|-+$` (where `^` only matches
at the very start, tracked by `atStart`, and `-+$` must reach the end). -/
def searchCharge : List Char → Bool → Option ChargeGroup
  | [], _ => none
  | c :: cs, atStart =>
    if c = 'i' then some (.roman ((c :: cs).takeWhile (· = 'i')))
    else if c = 'I' then some (.roman ((c :: cs).takeWhile (· = 'I')))
    else if isDigitCh c then some (.digit ((c :: cs).takeWhile isDigitCh))
    else if c = '+' && atStart then some (.signs ((c :: cs).takeWhile (· = '+')))
    else if c = '-' && ((c :: cs).dropWhile (· = '-')).isEmpty then
      some (.signs ((c :: cs).takeWhile (· = '-')))
    else searchCharge cs false

/-- The sign-and-magnitude part of the SMILES the code builds from the
charge group (ChemSpot.process lines 427-437).  The final `none` branch is
Python reading a never-assigned local variable (unreachable for charges
accepted by `RE_ION`). -/
def chargeRender (charge : List Char) : Option (List Char) :=
  match searchCharge charge true with
  | none => none
  | some (.roman g) => some ('+' :: natChars g.length)
  | some (.digit g) =>
    if charge.contains '+' then some ('+' :: g)
    else if charge.contains '-' then some ('-' :: g)
    else none
  | some (.signs g) => some ((g.headD '-') :: natChars g.length)

/-- The full ion-to-SMILES conversion of ChemSpot.process lines 422-437:
`none` when the entity string is not an ion (or when no charge group
matches), otherwise the bracket notation. -/
def ionSmiles (s : List Char) : Option (List Char) :=
  match ionMatch s with
  | none => none
  | some (elem, charge) =>
    match chargeRender charge with
    | none => none
    | some t => some ('[' :: elem ++ t ++ [']'])

/-- Numeral count of a Roman-numeral charge: length of the numeral run
after the optional leading `-` and `+`. -/
def romanCountOf (num : Char) (cs : List Char) : Nat :=
  ((chompOpt '+' (chompOpt '-' cs)).takeWhile (· = num)).length

/-- Specification-level description of the sign-and-magnitude the code
emits for a grammar-valid charge (the amended resolution rule: leftmost
match wins, so a charge beginning with `+` resolves as a one-sign run). -/
def specChargeChars (c : List Char) : List Char :=
  if altRoman 'i' c then
    if c.headD ' ' = '+' then ['+', '1'] else '+' :: natChars (romanCountOf 'i' c)
  else if altRoman 'I' c then
    if c.headD ' ' = '+' then ['+', '1'] else '+' :: natChars (romanCountOf 'I' c)
  else if altDigitPlus c then '+' :: c.takeWhile isDigitCh
  else if altDigitMinus c then '-' :: c.takeWhile isDigitCh
  else if altPlusDigit c then ['+', '1']
  else if altMinusDigit c then '-' :: c.drop 1
  else if altPlusRun c then '+' :: natChars c.length
  else '-' :: natChars c.length

/-- The charge resolution rule exactly as the claim words it: precedence
roman over digit over repeated sign, the digit form taking the digit
magnitude with its adjacent sign.  Used only to exhibit where the code
deviates from the claim. -/
def claimChargeChars (c : List Char) : Option (List Char) :=
  if altRoman 'i' c then some ('+' :: natChars (romanCountOf 'i' c))
  else if altRoman 'I' c then some ('+' :: natChars (romanCountOf 'I' c))
  else if altDigitPlus c || altPlusDigit c then some ('+' :: c.filter isDigitCh)
  else if altDigitMinus c || altMinusDigit c then some ('-' :: c.filter isDigitCh)
  else if altPlusRun c then some ('+' :: natChars c.length)
  else if altMinusRun c then some ('-' :: natChars c.length)
  else none

/-- The claim's predicted output of the ion parser. -/
def claimIonOut (s : List Char) : Option (List Char) :=
  match ionMatch s with
  | none => none
  | some (elem, charge) =>
    (claimChargeChars charge).map (fun t => '[' :: elem ++ t ++ [']'])

/-! ### PageLocator (ChemSpot.process lines 390-397 and 417-419) -/

/-- Python stdlib `bisect.bisect_left(a, x)` on an ascending list: the
leftmost insertion point, i.e. the number of leading elements `< x`. -/
def bisect_left (a : List Nat) (x : Nat) : Nat :=
  (a.takeWhile (fun y => decide (y < x))).length

/-- ChemSpot.process line 419:
`ent["page"] = str(bisect.bisect_left(page_ends, int(ent["start"])) + 1)`. -/
def assignPage (page_ends : List Nat) (start : Nat) : Nat :=
  bisect_left page_ends start + 1

/-- ChemSpot.process lines 391-397: cumulative end-offsets of the
non-empty pages of a form-feed-separated text. -/
def pageEndsOf (pages : List (List Char)) : List Nat :=
  pages.foldl
    (fun acc page =>
      if (pyStrip page).isEmpty then acc
      else acc ++ [acc.getLastD 0 + page.length - 1])
    []

/-! ### ResultRowParser (ChemSpot.parse_chemspot, lines 652-682)

`rows = [row.strip().split("\t") for row in text.strip().split("\n") if row]`
followed by a loop over an explicit enumerator.  The loop body reads
`row[3]` before checking `len(row)`; Python list indexing out of range
raises `IndexError`, modelled by `none`.  Explicitly consuming the next
row via `next(rows_enumerator)` on an exhausted enumerator raises
`StopIteration`, also modelled by `none`. -/

/-- One parsed ChemSpot output row (an OrderedDict in the source; the
`page` value is the integer 1 at this stage). -/
structure CRow where
  start : List Char
  stop : List Char
  page : Nat
  abbreviation : List Char
  entity : List Char
  type : List Char
deriving DecidableEq, Repr

/-- Build the OrderedDict of one output row. -/
def mkCRow (s e abbr ent ty : List Char) : CRow :=
  { start := s, stop := e, page := 1, abbreviation := abbr, entity := ent, type := ty }

/-- The row loop of parse_chemspot.  Each `none` is an uncaught Python
exception (IndexError from `row[3]` / `next_row[0]` / `next_row[1]`, or
StopIteration from `next(rows_enumerator)`). -/
def parseRows : List (List (List Char)) → Option (List CRow)
  | [] => some []
  | [row] =>
    match row.get? 3 with
    | none => none
    | some t3 =>
      let abbr := if t3 = "ABBREVIATION".data then row.getD 2 [] else []
      if row.length = 4 then
        some [mkCRow (row.getD 0 []) (row.getD 1 []) abbr (row.getD 2 []) t3]
      else if row.length = 5 then
        some [mkCRow (row.getD 0 []) (row.getD 1 []) abbr (row.getD 4 []) t3]
      else none
  | row :: nrow :: rest =>
    match row.get? 3 with
    | none => none
    | some t3 =>
      let abbr := if t3 = "ABBREVIATION".data then row.getD 2 [] else []
      if row.length = 4 then
        (parseRows (nrow :: rest)).map
          (fun rs => mkCRow (row.getD 0 []) (row.getD 1 []) abbr (row.getD 2 []) t3 :: rs)
      else if row.length = 5 then
        (parseRows (nrow :: rest)).map
          (fun rs => mkCRow (row.getD 0 []) (row.getD 1 []) abbr (row.getD 4 []) t3 :: rs)
      else
        match nrow.get? 0, nrow.get? 1 with
        | some n0, some n1 =>
          (parseRows rest).map
            (fun rs => mkCRow (row.getD 0 []) (row.getD 1 []) abbr
              (row.getD 2 [] ++ ' ' :: n0) n1 :: rs)
        | _, _ => none

/-- The row preprocessing of parse_chemspot. -/
def rowsOf (text : List Char) : List (List (List Char)) :=
  (((splitChar '\n' (pyStrip text)).filter (fun r => !r.isEmpty)).map
    (fun r => splitChar '\t' (pyStrip r)))

/-- ChemSpot.parse_chemspot on a text argument. -/
def parse_chemspot (text : List Char) : Option (List CRow) :=
  parseRows (rowsOf text)

/-! ### Deduplication (ChemSpot.process lines 385-388)

`[x for x in content if not (x["entity"] in seen or seen_add(x["entity"]))]`
with `seen` a set collecting each kept entity string. -/

/-- The comprehension with its `seen` set. -/
def dedupGo (seen : List (List Char)) : List CRow → List CRow
  | [] => []
  | x :: xs =>
    if x.entity ∈ seen then dedupGo seen xs
    else x :: dedupGo (x.entity :: seen) xs

/-- Deduplication of the parsed entity list. -/
def removeDuplicates (l : List CRow) : List CRow := dedupGo [] l

/-- ChemSpot.process line 385: the deduplication runs only when
`remove_duplicates` is set and the output is not IOB. -/
def applyDedup (remove_duplicates iob_format : Bool) (l : List CRow) : List CRow :=
  if remove_duplicates && !iob_format then removeDuplicates l else l

/-- Specification-level dedup: an element is kept exactly when its entity
string does not occur among the strictly earlier elements (`pre` carries
the entity strings of all earlier elements). -/
def keepFirstAux (pre : List (List Char)) : List CRow → List CRow
  | [] => []
  | x :: xs =>
    if x.entity ∈ pre then keepFirstAux (pre ++ [x.entity]) xs
    else x :: keepFirstAux (pre ++ [x.entity]) xs

/-- Keep exactly the first occurrence of each distinct entity string. -/
def keepFirst (l : List CRow) : List CRow := keepFirstAux [] l

/-! ### Output files (utils.write_empty_file, utils.dict_to_csv,
Extractor.process lines 395-403) -/

/-- utils.write_empty_file: the contents of the written file.
`if header and write_header: f.write(csv_delimiter.join(header))` followed
by `f.write("")`; a `None` or empty `header` list is falsy. -/
def write_empty_file_content (csv_delimiter : List Char)
    (header : Option (List (List Char))) (write_header : Bool) : List Char :=
  if (match header with | some h => !h.isEmpty | none => false) && write_header then
    joinWith csv_delimiter (header.getD [])
  else []

/-- utils.dict_to_csv with an output file: for an empty dict list it calls
`write_empty_file(output_file)` with default arguments (no header), else it
delegates to csv.DictWriter (abstracted here as the `serialize`
argument, which is out of the claims' scope). -/
def dict_to_csv_content {α : Type} (serialize : Bool → List α → List Char)
    (dicts : List α) (write_header : Bool) : List Char :=
  if dicts.isEmpty then write_empty_file_content ";".data none false
  else serialize write_header dicts

/-- Extractor.process lines 395-403: the fixed header schema used for the
empty-result output file. -/
def extractorHeaderCols : List (List Char) :=
  ["source".data, "type".data, "page".data, "abbreviation".data, "entity".data,
   "smiles".data, "inchi".data, "inchikey".data, "opsin_error".data]

/-! ### OPSIN.normalize_iupac (OPSIN.py lines 67 and 147-177) -/

/-- Python `str.lower()` restricted to the ASCII letters (the only
characters the claims exercise): the core basic-latin lowercasing. -/
def pyLowerChar (c : Char) : Char := c.toLower

/-- The stems of OPSIN.PLURAL_PATTERN:
`(nitrate|bromide|chloride|iodide|amine|ketoxime|ketone|oxime)s`,
IGNORECASE. -/
def pluralStems : List (List Char) :=
  ["nitrate".data, "bromide".data, "chloride".data, "iodide".data,
   "amine".data, "ketoxime".data, "ketone".data, "oxime".data]

/-- Case-insensitive (ASCII) character comparison, for IGNORECASE. -/
def ciEq (a b : Char) : Bool := pyLowerChar a = pyLowerChar b

/-- Try to match `stem` case-insensitively followed by a final `s`/`S` at
the head of `cs`; on success return the stem as written in `cs` (the
`\1` backreference keeps the original casing) and the rest after the
trailing `s`. -/
def matchStem (stem cs : List Char) : Option (List Char × List Char) :=
  match stem, cs with
  | [], c :: rest => if ciEq c 's' then some ([], rest) else none
  | [], [] => none
  | _ :: _, [] => none
  | t :: ts, c :: rest =>
    if ciEq t c then
      match matchStem ts rest with
      | some (orig, after) => some (c :: orig, after)
      | none => none
    else none

/-- First alternative of the plural pattern matching at this position. -/
def tryStems : List (List Char) → List Char → Option (List Char × List Char)
  | [], _ => none
  | st :: sts, cs =>
    match matchStem st cs with
    | some r => some r
    | none => tryStems sts cs

/-- `re.sub(PLURAL_PATTERN, r"\1", name)` with explicit fuel (the input
length bounds the number of scanning steps). -/
def pluralSubF : Nat → List Char → List Char
  | 0, cs => cs
  | _, [] => []
  | f + 1, c :: cs =>
    match tryStems pluralStems (c :: cs) with
    | some (orig, rest) => orig ++ pluralSubF f rest
    | none => c :: pluralSubF f cs

/-- `re.sub(PLURAL_PATTERN, r"\1", name)`. -/
def pluralSub (cs : List Char) : List Char := pluralSubF cs.length cs

/-- Python `str.split()` (split on whitespace runs, no empty pieces),
via an accumulator for the current word. -/
def splitWsAux : List Char → List Char → List (List Char)
  | [], acc => if acc.isEmpty then [] else [acc.reverse]
  | c :: cs, acc =>
    if isPySpace c then
      if acc.isEmpty then splitWsAux cs [] else acc.reverse :: splitWsAux cs []
    else splitWsAux cs (c :: acc)

/-- Python `name.split()`. -/
def pyWords (cs : List Char) : List (List Char) := splitWsAux cs []

/-- The per-word lambda `s[:1].lower() + s[1:] if s else ''`. -/
def lowerFirstWord : List Char → List Char
  | [] => []
  | c :: r => pyLowerChar c :: r

/-- The body of the normalize_iupac loop for one name. -/
def normName (name : List Char) : List Char :=
  joinWith [' '] ((pyWords (pluralSub name)).map (fun w => lowerFirstWord (pyStrip w)))

/-- OPSIN.normalize_iupac on a list argument (the `norm_names` loop). -/
def normalize_iupac_list (iupac_names : List (List Char)) : List (List Char) :=
  iupac_names.foldl (fun acc name => acc ++ [normName name]) []

/-- OPSIN.normalize_iupac on a string argument:
split on `"\n"`, normalize, re-join with `"\n"`. -/
def normalize_iupac_str (iupac_names : List Char) : List Char :=
  joinWith ['\n'] (normalize_iupac_list (splitChar '\n' iupac_names))

/-! ### ResultMerger (Extractor.process lines 355-393, OSRA.process line 544)

A Python dict value is heterogeneous (the OSRA page is an `int`, the
ChemSpot page a string), modelled by `PyVal`.  In the source the
non-annotated dicts simply omit the annotation keys; here the record
always carries them, with the omitted ones left `""`. -/

/-- A heterogeneous Python dict value. -/
inductive PyVal
  | s (v : String)
  | n (v : Nat)
deriving DecidableEq, Repr

/-- One OSRA (structure-recognizer) output compound, restricted to the
fields Extractor.process reads. -/
structure OsraEnt where
  page : Nat
  smiles : String
  inchi : String
  inchikey : String
  pch_cids_by_inchikey : String
  chs_cids_by_inchikey : String
  pch_cids_by_smiles : String
  chs_cids_by_smiles : String
  pch_cids_by_inchi : String
  chs_cids_by_inchi : String
  pch_iupac_name : String
  chs_common_name : String
  pch_synonyms : String
deriving DecidableEq, Repr

/-- One ChemSpot (text entity recognizer) output entity, restricted to the
fields Extractor.process reads. -/
structure NerEnt where
  type : String
  page : PyVal
  abbreviation : String
  entity : String
  pch_cids_by_name : String
  chs_cids_by_name : String
  pch_cids_by_inchikey : String
  chs_cids_by_inchikey : String
  pch_cids_by_smiles : String
  chs_cids_by_smiles : String
  pch_cids_by_inchi : String
  chs_cids_by_inchi : String
  pch_cids_by_formula : String
  pch_iupac_name : String
  chs_common_name : String
  pch_synonyms : String
deriving DecidableEq, Repr

/-- One OPSIN-converted record. -/
structure OpsinRec where
  smiles : String
  inchi : String
  inchikey : String
  error : String
deriving DecidableEq, Repr

/-- One merged result row of Extractor.process. -/
structure MEnt where
  source : String
  type : String
  page : PyVal
  abbreviation : String
  entity : String
  smiles : String
  inchi : String
  inchikey : String
  opsin_error : String
  pch_cids_by_name : String
  chs_cids_by_name : String
  pch_cids_by_inchikey : String
  chs_cids_by_inchikey : String
  pch_cids_by_smiles : String
  chs_cids_by_smiles : String
  pch_cids_by_inchi : String
  chs_cids_by_inchi : String
  pch_cids_by_formula : String
  pch_iupac_name : String
  chs_common_name : String
  pch_synonyms : String
deriving DecidableEq, Repr

/-- Extractor.process lines 358-373: the merged row built from one OSRA
compound (annotation columns filled only when `annotate`). -/
def osraToM (annotate : Bool) (e : OsraEnt) : MEnt :=
  { source := "osra", type := "2d_structure", page := PyVal.n e.page,
    abbreviation := "", entity := "",
    smiles := e.smiles, inchi := e.inchi, inchikey := e.inchikey,
    opsin_error := "",
    pch_cids_by_name := "", chs_cids_by_name := "",
    pch_cids_by_inchikey := if annotate then e.pch_cids_by_inchikey else "",
    chs_cids_by_inchikey := if annotate then e.chs_cids_by_inchikey else "",
    pch_cids_by_smiles := if annotate then e.pch_cids_by_smiles else "",
    chs_cids_by_smiles := if annotate then e.chs_cids_by_smiles else "",
    pch_cids_by_inchi := if annotate then e.pch_cids_by_inchi else "",
    chs_cids_by_inchi := if annotate then e.chs_cids_by_inchi else "",
    pch_cids_by_formula := "",
    pch_iupac_name := if annotate then e.pch_iupac_name else "",
    chs_common_name := if annotate then e.chs_common_name else "",
    pch_synonyms := if annotate then e.pch_synonyms else "" }

/-- Extractor.process lines 374-393: the merged row built from one
ChemSpot entity, optionally decorated with its OPSIN conversion. -/
def nerToM (annotate : Bool) (e : NerEnt) (op : Option OpsinRec) : MEnt :=
  { source := "chemspot", type := e.type, page := e.page,
    abbreviation := e.abbreviation, entity := e.entity,
    smiles := match op with | some o => o.smiles | none => "",
    inchi := match op with | some o => o.inchi | none => "",
    inchikey := match op with | some o => o.inchikey | none => "",
    opsin_error := match op with | some o => o.error | none => "",
    pch_cids_by_name := if annotate then e.pch_cids_by_name else "",
    chs_cids_by_name := if annotate then e.chs_cids_by_name else "",
    pch_cids_by_inchikey := if annotate then e.pch_cids_by_inchikey else "",
    chs_cids_by_inchikey := if annotate then e.chs_cids_by_inchikey else "",
    pch_cids_by_smiles := if annotate then e.pch_cids_by_smiles else "",
    chs_cids_by_smiles := if annotate then e.chs_cids_by_smiles else "",
    pch_cids_by_inchi := if annotate then e.pch_cids_by_inchi else "",
    chs_cids_by_inchi := if annotate then e.chs_cids_by_inchi else "",
    pch_cids_by_formula := if annotate then e.pch_cids_by_formula else "",
    pch_iupac_name := if annotate then e.pch_iupac_name else "",
    chs_common_name := if annotate then e.chs_common_name else "",
    pch_synonyms := if annotate then e.pch_synonyms else "" }

/-- The ChemSpot half of the joining loop: each entity whose type was
selected for OPSIN conversion consumes the next element of the
`opsin_converted` iterator; an exhausted iterator raises StopIteration
(modelled by `none`). -/
def nerJoin (annotate : Bool) (opsin_types : List String) :
    List NerEnt → List OpsinRec → Option (List MEnt)
  | [], _ => some []
  | e :: rest, ops =>
    if e.type ∈ opsin_types then
      match ops with
      | [] => none
      | op :: ops2 =>
        (nerJoin annotate opsin_types rest ops2).map (nerToM annotate e (some op) :: ·)
    else
      (nerJoin annotate opsin_types rest ops).map (nerToM annotate e none :: ·)

/-- Extractor.process lines 355-393: OSRA rows first, then ChemSpot rows. -/
def joinResults (annotate : Bool) (opsin_types : List String)
    (ocsr : List OsraEnt) (ner : List NerEnt) (ops : List OpsinRec) :
    Option (List MEnt) :=
  (nerJoin annotate opsin_types ner ops).map (fun b => ocsr.map (osraToM annotate) ++ b)

/-- Stable insertion used to model Python `sorted(compounds, key=page)`. -/
def insertByPage (x : OsraEnt) : List OsraEnt → List OsraEnt
  | [] => [x]
  | y :: ys => if x.page ≤ y.page then x :: y :: ys else y :: insertByPage x ys

/-- OSRA.process line 544:
`to_return["content"] = sorted(compounds, key=lambda x: x["page"])`
(Python sorted is a stable ascending sort). -/
def sortByPage : List OsraEnt → List OsraEnt
  | [] => []
  | x :: xs => insertByPage x (sortByPage xs)

/-- The page of a merged row when it came from OSRA (an `int` in Python). -/
def mPage (m : MEnt) : Nat :=
  match m.page with
  | PyVal.n v => v
  | PyVal.s _ => 0

/-- Extractor.process lines 395-403: contents of the written output file.
`serialize` abstracts `utils.dict_to_csv` for a non-empty result list
(out of the claims' scope); an empty result list goes through
`utils.write_empty_file` with the fixed header schema. -/
def extractorWriteContent (serialize : List MEnt → List Char)
    (results : List MEnt) (output_file : Bool) (csv_delimiter : List Char)
    (write_header : Bool) : Option (List Char) :=
  if !results.isEmpty then
    if output_file then some (serialize results) else none
  else
    if output_file then
      some (write_empty_file_content csv_delimiter (some extractorHeaderCols) write_header)
    else none

/-! ### DatabaseReconciler (ChemSpot.process lines 463-582)

The annotation block for one entity.  The two database clients are an
oracle mapping the history of issued searches (so that responses may vary
between the two passes) to the returned compound list; a caught exception
in a pubchempy call leaves `results` at its initial `[]`, so it is
observationally the oracle returning `[]`.  The `sleep` calls have no
observable effect in this model. -/

/-- One PubChem compound record, restricted to the attributes read. -/
structure PchCompound where
  cid : Nat
  canonical_smiles : String
  inchi : String
  inchikey : String
  iupac_name : String
  synonyms : List String
deriving DecidableEq, Repr

/-- One ChemSpider compound record, restricted to the attributes read. -/
structure ChsCompound where
  csid : Nat
  smiles : String
  stdinchi : String
  stdinchikey : String
  common_name : String
deriving DecidableEq, Repr

/-- The identifier kind a search was issued with (for ChemSpider the kind
is determined by the call site, since `chemspider.search` takes only the
query string). -/
inductive SearchKind
  | inchikey
  | name
  | smiles
  | inchi
  | formula
deriving DecidableEq, Repr

/-- The database a search was issued to. -/
inductive DBase
  | pch
  | chs
deriving DecidableEq, Repr

/-- One issued database search. -/
structure SearchEvent where
  db : DBase
  kind : SearchKind
  query : String
deriving DecidableEq, Repr

/-- The entity dict during annotation: identifier fields plus the twelve
annotation columns initialised at lines 465-471. -/
structure Ent where
  entity : String
  abbreviation : String
  smiles : String
  inchi : String
  inchikey : String
  pch_cids_by_inchikey : String
  chs_cids_by_inchikey : String
  pch_cids_by_name : String
  chs_cids_by_name : String
  pch_cids_by_smiles : String
  chs_cids_by_smiles : String
  pch_cids_by_inchi : String
  chs_cids_by_inchi : String
  pch_cids_by_formula : String
  pch_iupac_name : String
  chs_common_name : String
  pch_synonyms : String
deriving DecidableEq, Repr

/-- The environment: what each database returns for a search, given the
history of searches issued so far. -/
structure Oracle where
  pch : List SearchEvent → SearchKind → String → List PchCompound
  chs : List SearchEvent → SearchKind → String → List ChsCompound

/-- The per-entity reconciliation state: the entity dict, the two
"found" flags of line 474-475, and the trace of issued searches. -/
structure AnnState where
  ent : Ent
  found_in_pch : Bool
  found_in_chs : Bool
  log : List SearchEvent
deriving DecidableEq, Repr

/-- `"\"{}\"".format(",".join([str(c.cid) for c in results]))`. -/
def quoteJoin (ids : List Nat) : String :=
  "\"" ++ joinSep "," (ids.map Nat.repr) ++ "\""

/-- `"\"{}\"".format("\",\"".join(synonyms))`. -/
def quoteSyn (syns : List String) : String :=
  "\"" ++ joinSep "\",\"" syns ++ "\""

/-- Lines 491-493 / 504-506 / 521-523 / 536-538: overwrite the three
identifier fields, each falling back to its current value when the hit's
value is empty. -/
def updIdentifiers (e : Ent) (s i k : String) : Ent :=
  { e with smiles := pyOr s e.smiles, inchi := pyOr i e.inchi, inchikey := pyOr k e.inchikey }

/-- Lines 482-496: the PubChem InChIKey search block, as a pure entity
transformation given the other database's found flag and the results. -/
def pchIkUpdate (e : Ent) (found_other : Bool) (results : List PchCompound) : Ent :=
  if results.isEmpty then e
  else
    let e1 :=
      match results with
      | [result] =>
        let ea := if !result.synonyms.isEmpty then
            { e with pch_synonyms := quoteSyn result.synonyms } else e
        let eb := { ea with pch_iupac_name := result.iupac_name }
        if found_other then eb
        else updIdentifiers eb result.canonical_smiles result.inchi result.inchikey
      | _ => e
    { e1 with pch_cids_by_inchikey := quoteJoin (results.map (·.cid)) }

/-- Lines 498-507: the ChemSpider InChIKey search block. -/
def chsIkUpdate (e : Ent) (found_other : Bool) (results : List ChsCompound) : Ent :=
  if results.isEmpty then e
  else
    let e1 :=
      match results with
      | [result] =>
        let ea := { e with chs_common_name := result.common_name }
        if found_other then ea
        else updIdentifiers ea result.smiles result.stdinchi result.stdinchikey
      | _ => e
    { e1 with chs_cids_by_inchikey := quoteJoin (results.map (·.csid)) }

/-- Lines 511-525: the PubChem name search block. -/
def pchNameUpdate (e : Ent) (found_other : Bool) (results : List PchCompound) : Ent :=
  if results.isEmpty then e
  else
    let e1 :=
      match results with
      | [result] =>
        let ea := if !result.synonyms.isEmpty then
            { e with pch_synonyms := quoteSyn result.synonyms } else e
        let eb := if found_other then ea
          else updIdentifiers ea result.canonical_smiles result.inchi result.inchikey
        { eb with pch_iupac_name := result.iupac_name }
      | _ => e
    { e1 with pch_cids_by_name := quoteJoin (results.map (·.cid)) }

/-- Lines 530-540: the ChemSpider name search block. -/
def chsNameUpdate (e : Ent) (found_other : Bool) (results : List ChsCompound) : Ent :=
  if results.isEmpty then e
  else
    let e1 :=
      match results with
      | [result] =>
        let ea := if found_other then e
          else updIdentifiers e result.smiles result.stdinchi result.stdinchikey
        { ea with chs_common_name := result.common_name }
      | _ => e
    { e1 with chs_cids_by_name := quoteJoin (results.map (·.csid)) }

/-- Lines 480-496 as a state step: issue the PubChem InChIKey search. -/
def pchInchikeyStep (o : Oracle) (s : AnnState) : AnnState :=
  let results := o.pch s.log SearchKind.inchikey s.ent.inchikey
  { s with ent := pchIkUpdate s.ent s.found_in_chs results,
           log := s.log ++ [⟨DBase.pch, SearchKind.inchikey, s.ent.inchikey⟩] }

/-- Lines 498-507 as a state step: issue the ChemSpider InChIKey search
(with the entity possibly already updated by the PubChem block). -/
def chsInchikeyStep (o : Oracle) (s : AnnState) : AnnState :=
  let results := o.chs s.log SearchKind.inchikey s.ent.inchikey
  { s with ent := chsIkUpdate s.ent s.found_in_pch results,
           log := s.log ++ [⟨DBase.chs, SearchKind.inchikey, s.ent.inchikey⟩] }

/-- Lines 509-527: the gated PubChem name search; the gate is written
exactly as in the source. -/
def pchNameStep (o : Oracle) (s : AnnState) : AnnState :=
  if (!s.found_in_pch && !s.found_in_chs) || (!s.found_in_pch && s.found_in_chs) then
    let q := pyOr s.ent.entity s.ent.abbreviation
    let results := o.pch s.log SearchKind.name q
    { ent := pchNameUpdate s.ent s.found_in_chs results,
      found_in_pch := if results.length = 1 then true else s.found_in_pch,
      found_in_chs := s.found_in_chs,
      log := s.log ++ [⟨DBase.pch, SearchKind.name, q⟩] }
  else s

/-- Lines 529-540: the gated ChemSpider name search. -/
def chsNameStep (o : Oracle) (s : AnnState) : AnnState :=
  if (!s.found_in_pch && !s.found_in_chs) || (s.found_in_pch && !s.found_in_chs) then
    let q := pyOr s.ent.entity s.ent.abbreviation
    let results := o.chs s.log SearchKind.name q
    { ent := chsNameUpdate s.ent s.found_in_pch results,
      found_in_pch := s.found_in_pch,
      found_in_chs := if results.length = 1 then true else s.found_in_chs,
      log := s.log ++ [⟨DBase.chs, SearchKind.name, q⟩] }
  else s

/-- Lines 542-555 plus 572-575, the `search_field == "smiles"` iteration
of the field loop: two gated searches writing only the two cids columns. -/
def smilesStep (o : Oracle) (s : AnnState) : AnnState :=
  if s.ent.smiles ≠ "" ∧ s.ent.smiles.contains '*' = false then
    let gp := (!s.found_in_pch && !s.found_in_chs) || (!s.found_in_pch && s.found_in_chs)
    let gc := (!s.found_in_pch && !s.found_in_chs) || (s.found_in_pch && !s.found_in_chs)
    let rp := if gp then o.pch s.log SearchKind.smiles s.ent.smiles else []
    let log1 := if gp then s.log ++ [⟨DBase.pch, SearchKind.smiles, s.ent.smiles⟩] else s.log
    let rc := if gc then o.chs log1 SearchKind.smiles s.ent.smiles else []
    let log2 := if gc then log1 ++ [⟨DBase.chs, SearchKind.smiles, s.ent.smiles⟩] else log1
    let e1 := if !rp.isEmpty then
        { s.ent with pch_cids_by_smiles := quoteJoin (rp.map (·.cid)) } else s.ent
    let e2 := if !rc.isEmpty then
        { e1 with chs_cids_by_smiles := quoteJoin (rc.map (·.csid)) } else e1
    { s with ent := e2, log := log2 }
  else s

/-- Lines 556-563 plus 572-575, the `search_field == "inchi"` iteration. -/
def inchiStep (o : Oracle) (s : AnnState) : AnnState :=
  if s.ent.inchi ≠ "" then
    let gp := (!s.found_in_pch && !s.found_in_chs) || (!s.found_in_pch && s.found_in_chs)
    let gc := (!s.found_in_pch && !s.found_in_chs) || (s.found_in_pch && !s.found_in_chs)
    let rp := if gp then o.pch s.log SearchKind.inchi s.ent.inchi else []
    let log1 := if gp then s.log ++ [⟨DBase.pch, SearchKind.inchi, s.ent.inchi⟩] else s.log
    let rc := if gc then o.chs log1 SearchKind.inchi s.ent.inchi else []
    let log2 := if gc then log1 ++ [⟨DBase.chs, SearchKind.inchi, s.ent.inchi⟩] else log1
    let e1 := if !rp.isEmpty then
        { s.ent with pch_cids_by_inchi := quoteJoin (rp.map (·.cid)) } else s.ent
    let e2 := if !rc.isEmpty then
        { e1 with chs_cids_by_inchi := quoteJoin (rc.map (·.csid)) } else e1
    { s with ent := e2, log := log2 }
  else s

/-- Lines 564-575, the `search_field == "formula"` iteration: PubChem only
(ChemSpider has no formula search), querying the raw entity string. -/
def formulaStep (o : Oracle) (s : AnnState) : AnnState :=
  let gp := (!s.found_in_pch && !s.found_in_chs) || (!s.found_in_pch && s.found_in_chs)
  let rp := if gp then o.pch s.log SearchKind.formula s.ent.entity else []
  let log1 := if gp then s.log ++ [⟨DBase.pch, SearchKind.formula, s.ent.entity⟩] else s.log
  let e1 := if !rp.isEmpty then
      { s.ent with pch_cids_by_formula := quoteJoin (rp.map (·.cid)) } else s.ent
  { s with ent := e1, log := log1 }

/-- Lines 479-507: the branch taken when the entity has an InChIKey. -/
def inchikeyBranch (o : Oracle) (s : AnnState) : AnnState :=
  chsInchikeyStep o (pchInchikeyStep o s)

/-- Lines 508-577: the branch taken when the entity has no InChIKey. -/
def elseBranch (o : Oracle) (s : AnnState) : AnnState :=
  formulaStep o (inchiStep o (smilesStep o (chsNameStep o (pchNameStep o s))))

/-- One iteration of the `for _ in range(2)` loop (line 476). -/
def onePass (o : Oracle) (s : AnnState) : AnnState :=
  if s.ent.inchikey ≠ "" then inchikeyBranch o s else elseBranch o s

/-- Lines 465-471: reset the twelve annotation columns. -/
def initAnn (e : Ent) : Ent :=
  { e with pch_cids_by_inchikey := "", chs_cids_by_inchikey := "",
           pch_cids_by_name := "", chs_cids_by_name := "",
           pch_cids_by_smiles := "", chs_cids_by_smiles := "",
           pch_cids_by_inchi := "", chs_cids_by_inchi := "",
           pch_cids_by_formula := "",
           pch_iupac_name := "", chs_common_name := "", pch_synonyms := "" }

/-- Lines 474-475: the starting reconciliation state for one entity. -/
def initAnnState (e : Ent) : AnnState :=
  { ent := initAnn e, found_in_pch := false, found_in_chs := false, log := [] }

/-- Lines 463-582: the whole annotation of one entity.  The loop runs at
most twice; after a pass it breaks when neither database is found
(lines 581-582). -/
def annotateEnt (o : Oracle) (e : Ent) : AnnState :=
  let s1 := onePass o (initAnnState e)
  if !s1.found_in_pch && !s1.found_in_chs then s1 else onePass o s1

/-! ### Small helpers and concrete fixtures used by the theorems -/

/-- An optional one-character segment of a regex decomposition. -/
def optL (b : Bool) (c : Char) : List Char := if b then [c] else []

/-- The identifier triple of an entity. -/
def idsOf (e : Ent) : String × String × String := (e.smiles, e.inchi, e.inchikey)

/-- An environment in which every database search returns no results. -/
def oracleEmpty : Oracle := ⟨fun _ _ _ => [], fun _ _ _ => []⟩

/-- An environment in which searching either database by the name
`aspirin` yields exactly one hit whose structure fields are all empty. -/
def oracleBothNameHit : Oracle :=
  ⟨fun _ k q => if k = SearchKind.name ∧ q = "aspirin" then [⟨1, "", "", "", "", []⟩] else [],
   fun _ k q => if k = SearchKind.name ∧ q = "aspirin" then [⟨9, "", "", "", ""⟩] else []⟩

/-- A textual entity with a populated InChIKey. -/
def entWithIK : Ent :=
  { entity := "aspirin", abbreviation := "", smiles := "", inchi := "",
    inchikey := "BSYNRYMUTXBXSQ-UHFFFAOYSA-N",
    pch_cids_by_inchikey := "", chs_cids_by_inchikey := "", pch_cids_by_name := "",
    chs_cids_by_name := "", pch_cids_by_smiles := "", chs_cids_by_smiles := "",
    pch_cids_by_inchi := "", chs_cids_by_inchi := "", pch_cids_by_formula := "",
    pch_iupac_name := "", chs_common_name := "", pch_synonyms := "" }

/-- A textual entity with all three identifiers populated. -/
def entAllIds : Ent :=
  { entWithIK with smiles := "CC(=O)OC1=CC=CC=C1C(=O)O", inchi := "InChI=1S/aspirin" }

/-- A textual entity with no identifiers. -/
def entNoIds : Ent := { entWithIK with inchikey := "" }

/-- An OSRA compound with only a page, for the merge fixtures. -/
def osraD (p : Nat) : OsraEnt :=
  { page := p, smiles := "", inchi := "", inchikey := "",
    pch_cids_by_inchikey := "", chs_cids_by_inchikey := "", pch_cids_by_smiles := "",
    chs_cids_by_smiles := "", pch_cids_by_inchi := "", chs_cids_by_inchi := "",
    pch_iupac_name := "", chs_common_name := "", pch_synonyms := "" }

/-- A ChemSpot entity with only a type and a name, for the merge fixtures. -/
def nerD (t en : String) : NerEnt :=
  { type := t, page := PyVal.s "1", abbreviation := "", entity := en,
    pch_cids_by_name := "", chs_cids_by_name := "", pch_cids_by_inchikey := "",
    chs_cids_by_inchikey := "", pch_cids_by_smiles := "", chs_cids_by_smiles := "",
    pch_cids_by_inchi := "", chs_cids_by_inchi := "", pch_cids_by_formula := "",
    pch_iupac_name := "", chs_common_name := "", pch_synonyms := "" }

/-! ## Theorems -/

/-! ### PageLocator (C5) -/

theorem takeWhile_lt_length_of_sorted (off : Nat) :
    ∀ (b : List Nat), b.Pairwise (· ≤ ·) → off ∈ b →
      (b.takeWhile (fun y => decide (y < off))).length = b.indexOf off := by
  intro b
  induction b with
  | nil => intro _ h; cases h
  | cons x t ih =>
    intro hp hm
    rcases List.pairwise_cons.mp hp with ⟨hx, ht⟩
    by_cases hxe : x = off
    · subst hxe
      simp [List.takeWhile_cons, List.indexOf_cons_self]
    · have hmt : off ∈ t := by
        rcases hm with _ | h
        · exact absurd rfl hxe
        · assumption
      have hlt : x < off := lt_of_le_of_ne (hx off hmt) hxe
      have hne : (x == off) = false := beq_false_of_ne hxe
      simp [List.takeWhile_cons, hlt, List.indexOf_cons, hne, ih ht hmt, Nat.succ_eq_add_one]

theorem takeWhile_lt_all (off : Nat) :
    ∀ (b : List Nat), (∀ x ∈ b, x < off) →
      (b.takeWhile (fun y => decide (y < off))).length = b.length := by
  intro b
  induction b with
  | nil => intro _; rfl
  | cons x t ih =>
    intro h
    have hx : x < off := h x (by simp)
    simp [List.takeWhile_cons, hx, ih (fun y hy => h y (by simp [hy]))]

/-- Claim C5 (corrected), counterexample: with boundaries `[10, 25, 40]`,
the code assigns offset `999` the page `4` (one past the last page), not
the page `3` the claim asserts. -/
theorem assignPage_overflow_counterexample :
    assignPage [10, 25, 40] 999 = 4 ∧ (4 : Nat) ≠ 3 := by decide

/-- Claim C5 (amended): for every ascending boundary list, the assigned
page is the 1-based leftmost insertion point of the offset; an offset
equal to a boundary resolves to that boundary's page (the first index
where it occurs); an offset strictly greater than every boundary yields
the number of pages plus one (not the last page); with boundaries
`[10, 25, 40]`, offsets 5, 10, 11, 999 yield pages 1, 1, 2, 4. -/
theorem assignPage_characterization (b : List Nat) (off : Nat)
    (hsorted : b.Pairwise (· ≤ ·)) :
    (assignPage b off = (b.takeWhile (fun y => decide (y < off))).length + 1)
    ∧ (off ∈ b → assignPage b off = b.indexOf off + 1)
    ∧ ((∀ x ∈ b, x < off) → assignPage b off = b.length + 1)
    ∧ (assignPage [10, 25, 40] 5 = 1 ∧ assignPage [10, 25, 40] 10 = 1
       ∧ assignPage [10, 25, 40] 11 = 2 ∧ assignPage [10, 25, 40] 999 = 4) := by
  refine ⟨rfl, ?_, ?_, by decide⟩
  · intro hm
    simp [assignPage, bisect_left, takeWhile_lt_length_of_sorted off b hsorted hm]
  · intro hall
    simp [assignPage, bisect_left, takeWhile_lt_all off b hall]

theorem assignPage_characterization_witness :
    assignPage [10, 25, 40] 10 = [10, 25, 40].indexOf 10 + 1
    ∧ assignPage [10, 25, 40] 999 = [10, 25, 40].length + 1 :=
  ⟨(assignPage_characterization [10, 25, 40] 10 (by decide)).2.1 (by decide),
   (assignPage_characterization [10, 25, 40] 999 (by decide)).2.2.1 (by decide)⟩

/-! ### ResultRowParser (C6) -/

/-- Claim C6 (the code defect): a well-formed 4-field row parses to one
entity, but the documented split-row healing is unreachable: on a 3-field
line followed by its continuation line the loop reads `row[3]` before
checking the field count, so Python raises an uncaught IndexError
(modelled by `none`) instead of producing the merged entity. -/
theorem parse_chemspot_split_row_bug :
    parse_chemspot "10\t20\taspirin\tTRIVIAL".data =
      some [mkCRow "10".data "20".data [] "aspirin".data "TRIVIAL".data]
    ∧ parse_chemspot
        "5355\t5396\t3-(cyclohexylamino)-1-propanesulfonic\nacid\tSYSTEMATIC".data
      = none := by
  constructor
  · rfl
  · rfl

/-! ### Deduplication (C8) -/

theorem dedupGo_eq_keepFirstAux :
    ∀ (l : List CRow) (seen pre : List (List Char)),
      (∀ a, a ∈ seen ↔ a ∈ pre) → dedupGo seen l = keepFirstAux pre l := by
  intro l
  induction l with
  | nil => intro _ _ _; rfl
  | cons x xs ih =>
    intro seen pre h
    by_cases hx : x.entity ∈ seen
    · have hx2 : x.entity ∈ pre := (h _).mp hx
      simp only [dedupGo, keepFirstAux, if_pos hx, if_pos hx2]
      refine ih seen (pre ++ [x.entity]) (fun a => ?_)
      constructor
      · intro ha; exact List.mem_append_left _ ((h a).mp ha)
      · intro ha
        rcases List.mem_append.mp ha with h1 | h2
        · exact (h a).mpr h1
        · have : a = x.entity := by simpa using h2
          subst this; exact hx
    · have hx2 : x.entity ∉ pre := fun hc => hx ((h _).mpr hc)
      simp only [dedupGo, keepFirstAux, if_neg hx, if_neg hx2]
      congr 1
      refine ih (x.entity :: seen) (pre ++ [x.entity]) (fun a => ?_)
      constructor
      · intro ha
        rcases List.mem_cons.mp ha with h1 | h1
        · subst h1; simp
        · exact List.mem_append_left _ ((h a).mp h1)
      · intro ha
        rcases List.mem_append.mp ha with h1 | h1
        · exact List.mem_cons_of_mem _ ((h a).mpr h1)
        · have : a = x.entity := by simpa using h1
          subst this; simp

theorem dedupGo_sublist : ∀ (l : List CRow) (seen : List (List Char)),
    (dedupGo seen l).Sublist l := by
  intro l
  induction l with
  | nil => intro _; exact List.Sublist.refl _
  | cons x xs ih =>
    intro seen
    by_cases hx : x.entity ∈ seen
    · simp only [dedupGo, if_pos hx]
      exact (ih seen).cons x
    · simp only [dedupGo, if_neg hx]
      exact (ih (x.entity :: seen)).cons₂ x

/-- Claim C8: with deduplication enabled (and non-IOB output) the entity
list is filtered to exactly the first occurrence of each distinct entity
string, compared by exact list equality, keeping the survivors in their
original relative order (a sublist of the input); on the detection order
aspirin, aspirin, ibuprofen it keeps aspirin, ibuprofen. -/
theorem dedup_keeps_first_occurrences :
    (∀ l : List CRow,
      applyDedup true false l = keepFirst l ∧ (applyDedup true false l).Sublist l)
    ∧ ((applyDedup true false
          [mkCRow "1".data "2".data [] "aspirin".data "TRIVIAL".data,
           mkCRow "3".data "4".data [] "aspirin".data "TRIVIAL".data,
           mkCRow "5".data "6".data [] "ibuprofen".data "TRIVIAL".data]).map
        (fun r => r.entity) = ["aspirin".data, "ibuprofen".data]) := by
  refine ⟨fun l => ⟨?_, ?_⟩, by decide⟩
  · simpa [applyDedup, removeDuplicates, keepFirst] using
      dedupGo_eq_keepFirstAux l [] [] (fun a => Iff.rfl)
  · simpa [applyDedup, removeDuplicates] using dedupGo_sublist l []

/-! ### Empty-result output (C9) -/

/-- Claim C9: with zero extracted entities and an output file configured,
the Extractor writes a file whose contents are exactly the fixed header
schema joined by the delimiter when header-writing is requested, and
nothing at all when it is not; the empty-result case produces a written
file, not an error.  The generic dict-to-csv writer given an empty dict
list likewise writes an empty file. -/
theorem empty_result_output :
    (∀ (serialize : List MEnt → List Char) (delim : List Char) (wh : Bool),
      extractorWriteContent serialize [] true delim wh =
        some (if wh then joinWith delim extractorHeaderCols else []))
    ∧ (∀ (serialize : Bool → List MEnt → List Char) (wh : Bool),
      dict_to_csv_content serialize ([] : List MEnt) wh = []) := by
  constructor
  · intro serialize delim wh
    cases wh <;> rfl
  · intro serialize wh
    rfl

/-! ### OPSIN name normalization (C10) -/

theorem normalize_iupac_list_eq_map (names : List (List Char)) :
    normalize_iupac_list names = names.map normName := by
  have h : ∀ (l : List (List Char)) (acc : List (List Char)),
      l.foldl (fun acc name => acc ++ [normName name]) acc = acc ++ l.map normName := by
    intro l
    induction l with
    | nil => intro acc; simp
    | cons x xs ih => intro acc; simp [List.foldl_cons, ih]
  simpa [normalize_iupac_list] using h names []

theorem splitChar_ne_nil (sep : Char) (cs : List Char) : splitChar sep cs ≠ [] := by
  cases cs with
  | nil => simp [splitChar]
  | cons c cs =>
    by_cases h : c = sep
    · simp [splitChar, h]
    · simp only [splitChar, if_neg h]
      rcases hs : splitChar sep cs with _ | ⟨p, ps⟩ <;> simp

theorem splitChar_of_not_mem (sep : Char) (cs : List Char) (h : sep ∉ cs) :
    splitChar sep cs = [cs] := by
  induction cs with
  | nil => rfl
  | cons c cs ih =>
    have hc : c ≠ sep := fun hc => h (by simp [hc])
    have hcs : sep ∉ cs := fun hm => h (by simp [hm])
    simp only [splitChar, if_neg hc, ih hcs]

theorem splitChar_append_cons (sep : Char) (w t : List Char) (h : sep ∉ w) :
    splitChar sep (w ++ sep :: t) = w :: splitChar sep t := by
  induction w with
  | nil => simp [splitChar]
  | cons c cs ih =>
    have hc : c ≠ sep := fun hc => h (by simp [hc])
    have hcs : sep ∉ cs := fun hm => h (by simp [hm])
    simp only [List.cons_append, splitChar, if_neg hc, List.append_eq]
    rw [ih hcs]

theorem splitChar_joinWith (sep : Char) :
    ∀ (l : List (List Char)), l ≠ [] → (∀ w ∈ l, sep ∉ w) →
      splitChar sep (joinWith [sep] l) = l := by
  intro l
  induction l with
  | nil => intro h; exact absurd rfl h
  | cons w ws ih =>
    intro _ hmem
    cases ws with
    | nil =>
      simpa [joinWith] using splitChar_of_not_mem sep w (hmem w (by simp))
    | cons v vs =>
      have hjoin : joinWith [sep] (w :: v :: vs) = w ++ sep :: joinWith [sep] (v :: vs) := by
        simp [joinWith]
      rw [hjoin, splitChar_append_cons sep w _ (hmem w (by simp))]
      rw [ih (by simp) (fun u hu => hmem u (by simp [hu]))]

theorem mem_joinWith (sep : List Char) (c : Char) :
    ∀ (l : List (List Char)), c ∈ joinWith sep l → c ∈ sep ∨ ∃ w ∈ l, c ∈ w := by
  intro l
  induction l with
  | nil => intro h; cases h
  | cons w ws ih =>
    cases ws with
    | nil =>
      intro h
      exact Or.inr ⟨w, by simp, by simpa [joinWith] using h⟩
    | cons v vs =>
      intro h
      have h2 : joinWith sep (w :: v :: vs) = w ++ sep ++ joinWith sep (v :: vs) := by
        simp [joinWith]
      rw [h2] at h
      rcases List.mem_append.mp h with h3 | h3
      · rcases List.mem_append.mp h3 with h4 | h4
        · exact Or.inr ⟨w, by simp, h4⟩
        · exact Or.inl h4
      · rcases ih h3 with h4 | ⟨u, hu, hc⟩
        · exact Or.inl h4
        · exact Or.inr ⟨u, by simp [hu], hc⟩

theorem splitWsAux_no_space :
    ∀ (cs acc : List Char), (∀ c ∈ acc, isPySpace c = false) →
      ∀ w ∈ splitWsAux cs acc, ∀ c ∈ w, isPySpace c = false := by
  intro cs
  induction cs with
  | nil =>
    intro acc hacc w hw c hc
    by_cases h : acc.isEmpty
    · simp [splitWsAux, h] at hw
    · simp [splitWsAux, h] at hw
      subst hw
      exact hacc c (by simpa using hc)
  | cons x xs ih =>
    intro acc hacc w hw c hc
    by_cases hx : isPySpace x
    · by_cases h : acc.isEmpty
      · simp only [splitWsAux, hx, if_pos h, if_true] at hw
        exact ih [] (by simp) w hw c hc
      · simp only [splitWsAux, hx, if_neg h, if_true] at hw
        rcases List.mem_cons.mp hw with h1 | h1
        · subst h1; exact hacc c (by simpa using hc)
        · exact ih [] (by simp) w h1 c hc
    · simp only [splitWsAux, hx, if_false, Bool.false_eq_true] at hw
      refine ih (x :: acc) ?_ w hw c hc
      intro d hd
      rcases List.mem_cons.mp hd with h1 | h1
      · subst h1; simpa using hx
      · exact hacc d h1

theorem mem_pyStrip (c : Char) (w : List Char) (h : c ∈ pyStrip w) : c ∈ w := by
  unfold pyStrip at h
  rw [List.mem_reverse] at h
  have h2 := (List.dropWhile_sublist _).mem h
  rw [List.mem_reverse] at h2
  exact (List.dropWhile_sublist _).mem h2

theorem ne_of_toNat_ne {c d : Char} (h : c.toNat ≠ d.toNat) : c ≠ d :=
  fun he => h (congrArg Char.toNat he)

theorem isPySpace_eq_false_of_toNat (c : Char) (h : 96 < c.toNat) :
    isPySpace c = false := by
  have h1 : c ≠ ' ' := ne_of_toNat_ne (by rw [show (' ' : Char).toNat = 32 from rfl]; omega)
  have h2 : c ≠ '\t' := ne_of_toNat_ne (by rw [show ('\t' : Char).toNat = 9 from rfl]; omega)
  have h3 : c ≠ '\n' := ne_of_toNat_ne (by rw [show ('\n' : Char).toNat = 10 from rfl]; omega)
  have h4 : c ≠ '\r' := ne_of_toNat_ne (by rw [show ('\r' : Char).toNat = 13 from rfl]; omega)
  have h5 : c ≠ '\x0b' := ne_of_toNat_ne (by rw [show ('\x0b' : Char).toNat = 11 from rfl]; omega)
  have h6 : c ≠ '\x0c' := ne_of_toNat_ne (by rw [show ('\x0c' : Char).toNat = 12 from rfl]; omega)
  simp [isPySpace, h1, h2, h3, h4, h5, h6]

theorem pyLowerChar_no_space (c : Char) (h : isPySpace c = false) :
    isPySpace (pyLowerChar c) = false := by
  unfold pyLowerChar Char.toLower
  show isPySpace (if c.toNat ≥ 65 ∧ c.toNat ≤ 90 then Char.ofNat (c.toNat + 32) else c) = false
  split
  · next hr =>
    have hvalid : Nat.isValidChar (c.toNat + 32) := Or.inl (by omega)
    have hv : (Char.ofNat (c.toNat + 32)).toNat = c.toNat + 32 := by
      rw [Char.ofNat, dif_pos hvalid]
      rfl
    exact isPySpace_eq_false_of_toNat _ (by omega)
  · exact h

theorem newline_not_mem_normName (name : List Char) : '\n' ∉ normName name := by
  intro hmem
  unfold normName at hmem
  rcases mem_joinWith [' '] '\n' _ hmem with h | ⟨w, hw, hc⟩
  · simp at h
  · rcases List.mem_map.mp hw with ⟨w0, hw0, rfl⟩
    have hns : ∀ c ∈ w0, isPySpace c = false :=
      splitWsAux_no_space (pluralSub name) [] (by simp) w0 hw0
    cases hst : pyStrip w0 with
    | nil => rw [hst] at hc; simp [lowerFirstWord] at hc
    | cons c0 r =>
      rw [hst] at hc
      simp only [lowerFirstWord] at hc
      rcases List.mem_cons.mp hc with h1 | h1
      · have hc0 : isPySpace c0 = false := hns c0 (mem_pyStrip _ _ (by simp [hst]))
        have := pyLowerChar_no_space c0 hc0
        rw [← h1] at this
        simp [isPySpace] at this
      · have : isPySpace '\n' = false := hns '\n' (mem_pyStrip _ _ (by simp [hst, h1]))
        simp [isPySpace] at this

/-- Claim C10: IUPAC-name normalization maps each name independently: on a
list it returns a list of the same length whose i-th element is the
normalization of the i-th input, and on a newline-joined string it returns
a string with exactly the same number of newline-separated entries (the
normalizer never emits a newline), keeping the output aligned line-for-line
with the name-to-structure backend protocol. -/
theorem normalize_iupac_entry_alignment :
    (∀ names : List (List Char),
      (normalize_iupac_list names).length = names.length
      ∧ normalize_iupac_list names = names.map normName)
    ∧ (∀ cs : List Char,
      (splitChar '\n' (normalize_iupac_str cs)).length = (splitChar '\n' cs).length) := by
  constructor
  · intro names
    refine ⟨?_, normalize_iupac_list_eq_map names⟩
    rw [normalize_iupac_list_eq_map names, List.length_map]
  · intro cs
    unfold normalize_iupac_str
    rw [normalize_iupac_list_eq_map]
    rw [splitChar_joinWith '\n' _ ?_ ?_]
    · rw [List.length_map]
    · intro h
      exact splitChar_ne_nil '\n' cs (by simpa using congrArg List.length h)
    · intro w hw
      rcases List.mem_map.mp hw with ⟨w0, _, rfl⟩
      exact newline_not_mem_normName w0

/-! ### IonNotationParser (C4) -/

theorem takeWhile_append_all (p : Char → Bool) (l t : List Char)
    (hl : ∀ c ∈ l, p c = true) (ht : t.takeWhile p = []) :
    (l ++ t).takeWhile p = l := by
  induction l with
  | nil => simpa using ht
  | cons c cs ih =>
    have hc : p c = true := hl c (by simp)
    simp only [List.cons_append, List.takeWhile_cons, hc, if_true]
    rw [ih (fun d hd => hl d (by simp [hd]))]

theorem dropWhile_append_all (p : Char → Bool) (l t : List Char)
    (hl : ∀ c ∈ l, p c = true) :
    (l ++ t).dropWhile p = t.dropWhile p := by
  induction l with
  | nil => rfl
  | cons c cs ih =>
    have hc : p c = true := hl c (by simp)
    simp only [List.cons_append, List.dropWhile_cons, hc, if_true]
    exact ih (fun d hd => hl d (by simp [hd]))

theorem takeWhile_all (p : Char → Bool) (l : List Char)
    (hl : ∀ c ∈ l, p c = true) : l.takeWhile p = l := by
  have := takeWhile_append_all p l [] hl rfl
  simpa using this

theorem charContains_eq_true {l : List Char} {c : Char} (h : c ∈ l) :
    l.contains c = true := by
  simpa [List.contains] using List.elem_eq_true_of_mem h

theorem charContains_eq_false {l : List Char} {c : Char} (h : c ∉ l) :
    l.contains c = false := by
  by_contra hc
  exact h (List.mem_of_elem_eq_true (by simpa [List.contains] using hc))

theorem digit_facts (d : Char) (h : isDigitCh d = true) :
    d ≠ 'i' ∧ d ≠ 'I' ∧ d ≠ '+' ∧ d ≠ '-' ∧ d ≠ ')' := by
  refine ⟨?_, ?_, ?_, ?_, ?_⟩ <;>
    (rintro rfl; exact absurd h (by decide))

theorem chompOpt_shape (x : Char) (l : List Char) :
    ∃ b : Bool, l = optL b x ++ chompOpt x l := by
  cases l with
  | nil => exact ⟨false, rfl⟩
  | cons c t =>
    by_cases h : c = x
    · exact ⟨true, by simp [chompOpt, h, optL]⟩
    · exact ⟨false, by simp [chompOpt, h, optL]⟩

theorem altRoman_shape (num : Char) (cs : List Char) (h : altRoman num cs = true) :
    ∃ (m p q r : Bool) (n : Nat), 0 < n ∧
      cs = optL m '-' ++ (optL p '+' ++
        (List.replicate n num ++ (optL q '+' ++ optL r '-'))) := by
  simp only [altRoman, Bool.and_eq_true, Bool.not_eq_true', List.isEmpty_eq_false,
    List.isEmpty_eq_true] at h
  obtain ⟨hrun, hc5⟩ := h
  obtain ⟨m, hm⟩ := chompOpt_shape '-' cs
  obtain ⟨p, hp⟩ := chompOpt_shape '+' (chompOpt '-' cs)
  obtain ⟨q, hq⟩ := chompOpt_shape '+'
    ((chompOpt '+' (chompOpt '-' cs)).dropWhile (· = num))
  obtain ⟨r, hr⟩ := chompOpt_shape '-'
    (chompOpt '+' ((chompOpt '+' (chompOpt '-' cs)).dropWhile (· = num)))
  refine ⟨m, p, q, r,
    ((chompOpt '+' (chompOpt '-' cs)).takeWhile (· = num)).length, ?_, ?_⟩
  · cases hx : (chompOpt '+' (chompOpt '-' cs)).takeWhile (· = num) with
    | nil => exact absurd hx hrun
    | cons a t => simp
  · have hrep : (chompOpt '+' (chompOpt '-' cs)).takeWhile (· = num) =
        List.replicate ((chompOpt '+' (chompOpt '-' cs)).takeWhile (· = num)).length num := by
      refine List.eq_replicate_length.mpr (fun b hb => ?_)
      have := List.mem_takeWhile_imp hb
      simpa using this
    calc cs = optL m '-' ++ chompOpt '-' cs := hm
      _ = optL m '-' ++ (optL p '+' ++ chompOpt '+' (chompOpt '-' cs)) := by rw [← hp]
      _ = optL m '-' ++ (optL p '+' ++
            ((chompOpt '+' (chompOpt '-' cs)).takeWhile (· = num) ++
             (chompOpt '+' (chompOpt '-' cs)).dropWhile (· = num))) := by
            rw [List.takeWhile_append_dropWhile]
      _ = _ := by
            rw [hq, hr, hc5]
            rw [← hrep]
            simp

theorem roman_tail_facts (x : Char) (q r : Bool) (hx1 : x ≠ '+') (hx2 : x ≠ '-') :
    (optL q '+' ++ optL r '-').takeWhile (· = x) = []
    ∧ (optL q '+' ++ optL r '-').dropWhile (· = x) = optL q '+' ++ optL r '-'
    ∧ chompOpt '-' (chompOpt '+' (optL q '+' ++ optL r '-')) = [] := by
  have h1 : ('+' : Char) ≠ x := Ne.symm hx1
  have h2 : ('-' : Char) ≠ x := Ne.symm hx2
  cases q <;> cases r <;>
    simp [optL, chompOpt, List.takeWhile_cons, List.dropWhile_cons, h1, h2]

theorem roman_front_chomp (x : Char) (m p q r : Bool) (n : Nat)
    (hx1 : x ≠ '+') (hx2 : x ≠ '-') (hn : 0 < n) :
    chompOpt '+' (chompOpt '-' (optL m '-' ++ (optL p '+' ++
        (List.replicate n x ++ (optL q '+' ++ optL r '-'))))) =
      List.replicate n x ++ (optL q '+' ++ optL r '-') := by
  cases n with
  | zero => omega
  | succ k =>
    cases m <;> cases p <;>
      simp [optL, chompOpt, List.replicate_succ, hx1, hx2]

theorem altRoman_eval (num x : Char) (m p q r : Bool) (n : Nat)
    (hx1 : x ≠ '+') (hx2 : x ≠ '-') (hn : 0 < n) :
    altRoman num (optL m '-' ++ (optL p '+' ++
        (List.replicate n x ++ (optL q '+' ++ optL r '-')))) = decide (x = num) := by
  obtain ⟨tf1, tf2, tf3⟩ := roman_tail_facts x q r hx1 hx2
  have hfront := roman_front_chomp x m p q r n hx1 hx2 hn
  by_cases hxn : x = num
  · subst hxn
    have htw : (List.replicate n x ++ (optL q '+' ++ optL r '-')).takeWhile (· = x)
        = List.replicate n x :=
      takeWhile_append_all _ _ _
        (fun c hc => by simp [List.eq_of_mem_replicate hc]) tf1
    have hdw : (List.replicate n x ++ (optL q '+' ++ optL r '-')).dropWhile (· = x)
        = optL q '+' ++ optL r '-' := by
      rw [dropWhile_append_all _ _ _ (fun c hc => by simp [List.eq_of_mem_replicate hc]), tf2]
    have hne : List.replicate n x ≠ [] := by
      cases n with
      | zero => omega
      | succ k => simp
    simp only [altRoman, hfront, htw, hdw, tf3, hne, List.isEmpty_nil, Bool.and_true]
    simp [List.isEmpty_eq_false, hne]
    omega
  · have hxn2 : ∀ c ∈ List.replicate n x, (c = num) = False := by
      intro c hc
      simp [List.eq_of_mem_replicate hc, hxn]
    have htw0 : (List.replicate n x ++ (optL q '+' ++ optL r '-')).takeWhile (· = num) = [] := by
      cases n with
      | zero => omega
      | succ k => simp [List.replicate_succ, List.takeWhile_cons, hxn]
    simp [altRoman, hfront, htw0, hxn]

theorem searchCharge_roman_core (num : Char) (hnum : num = 'i' ∨ num = 'I')
    (q r : Bool) (n : Nat) (hn : 0 < n) (b : Bool) :
    searchCharge (List.replicate n num ++ (optL q '+' ++ optL r '-')) b =
      some (ChargeGroup.roman (List.replicate n num)) := by
  have hx1 : num ≠ '+' := by rcases hnum with rfl | rfl <;> decide
  have hx2 : num ≠ '-' := by rcases hnum with rfl | rfl <;> decide
  obtain ⟨tf1, _, _⟩ := roman_tail_facts num q r hx1 hx2
  have htw : (List.replicate n num ++ (optL q '+' ++ optL r '-')).takeWhile (· = num)
      = List.replicate n num :=
    takeWhile_append_all _ _ _
      (fun c hc => by simp [List.eq_of_mem_replicate hc]) tf1
  cases n with
  | zero => omega
  | succ k =>
    rcases hnum with rfl | rfl
    · rw [List.replicate_succ, List.cons_append, searchCharge, if_pos rfl,
        ← List.cons_append, ← List.replicate_succ, htw]
    · rw [List.replicate_succ, List.cons_append, searchCharge, if_neg (by decide),
        if_pos rfl, ← List.cons_append, ← List.replicate_succ, htw]

theorem searchCharge_roman_front (num : Char) (hnum : num = 'i' ∨ num = 'I')
    (m p q r : Bool) (n : Nat) (hn : 0 < n) :
    searchCharge (optL m '-' ++ (optL p '+' ++
        (List.replicate n num ++ (optL q '+' ++ optL r '-')))) true =
      (if m = false ∧ p = true then some (ChargeGroup.signs ['+'])
       else some (ChargeGroup.roman (List.replicate n num))) := by
  have hx1 : num ≠ '+' := by rcases hnum with rfl | rfl <;> decide
  have hx2 : num ≠ '-' := by rcases hnum with rfl | rfl <;> decide
  have hxi : (num = 'i') ∨ (num = 'I') := hnum
  obtain ⟨k, rfl⟩ : ∃ k, n = k + 1 := ⟨n - 1, by omega⟩
  have hcore := searchCharge_roman_core num hnum q r (k + 1) (by omega)
  cases m with
  | false =>
    cases p with
    | true =>
      -- charge begins with '+': the anchored sign run wins at position 0
      have hrest : (List.replicate (k + 1) num ++ (optL q '+' ++ optL r '-')).takeWhile
          (· = '+') = [] := by
        simp [List.replicate_succ, List.takeWhile_cons, hx1]
      rw [show (optL false '-' ++ (optL true '+' ++
          (List.replicate (k + 1) num ++ (optL q '+' ++ optL r '-')))) =
          '+' :: (List.replicate (k + 1) num ++ (optL q '+' ++ optL r '-')) by simp [optL]]
      rw [searchCharge, if_neg (by decide), if_neg (by decide), if_neg (by decide),
        if_pos (by decide), List.takeWhile_cons, if_pos (by decide), hrest]
      simp
    | false =>
      simpa [optL] using hcore true
  | true =>
    -- leading '-': the minus run does not reach the end, so scanning moves on
    have hbody : searchCharge (optL p '+' ++
        (List.replicate (k + 1) num ++ (optL q '+' ++ optL r '-'))) false =
        some (ChargeGroup.roman (List.replicate (k + 1) num)) := by
      cases p with
      | false => simpa [optL] using hcore false
      | true =>
        rw [show (optL true '+' ++ (List.replicate (k + 1) num ++ (optL q '+' ++ optL r '-'))) =
            '+' :: (List.replicate (k + 1) num ++ (optL q '+' ++ optL r '-')) by simp [optL]]
        rw [searchCharge, if_neg (by decide), if_neg (by decide), if_neg (by decide),
          if_neg (by simp), if_neg ?_]
        · exact hcore false
        · simp
    have hdrop : (List.dropWhile (· = '-') ('-' :: (optL p '+' ++
        (List.replicate (k + 1) num ++ (optL q '+' ++ optL r '-'))))).isEmpty = false := by
      rw [List.dropWhile_cons, if_pos (by decide)]
      cases p with
      | false => simp [optL, List.replicate_succ, List.dropWhile_cons, hx2]
      | true => simp [optL, List.dropWhile_cons]
    rw [show (optL true '-' ++ (optL p '+' ++
        (List.replicate (k + 1) num ++ (optL q '+' ++ optL r '-')))) =
        '-' :: (optL p '+' ++ (List.replicate (k + 1) num ++ (optL q '+' ++ optL r '-')))
        by simp [optL]]
    rw [searchCharge, if_neg (by decide), if_neg (by decide), if_neg (by decide),
      if_neg (by simp), if_neg ?_]
    · simpa using hbody
    · rw [Bool.and_eq_true, decide_eq_true_iff]
      rintro ⟨-, habs⟩
      rw [hdrop] at habs
      cases habs

theorem render_roman (num : Char) (hnum : num = 'i' ∨ num = 'I') (c : List Char)
    (h : altRoman num c = true) :
    chargeRender c = some (specChargeChars c) := by
  have hx1 : num ≠ '+' := by rcases hnum with rfl | rfl <;> decide
  have hx2 : num ≠ '-' := by rcases hnum with rfl | rfl <;> decide
  obtain ⟨m, p, q, r, n, hn, hcs⟩ := altRoman_shape num c h
  obtain ⟨tf1, tf2, tf3⟩ := roman_tail_facts num q r hx1 hx2
  have htw : (List.replicate n num ++ (optL q '+' ++ optL r '-')).takeWhile (· = num)
      = List.replicate n num :=
    takeWhile_append_all _ _ _ (fun d hd => by simp [List.eq_of_mem_replicate hd]) tf1
  have hcount : romanCountOf num c = n := by
    rw [hcs]
    unfold romanCountOf
    rw [roman_front_chomp num m p q r n hx1 hx2 hn, htw, List.length_replicate]
  have hsearch : searchCharge c true =
      (if m = false ∧ p = true then some (ChargeGroup.signs ['+'])
       else some (ChargeGroup.roman (List.replicate n num))) := by
    rw [hcs]
    exact searchCharge_roman_front num hnum m p q r n hn
  have hri : altRoman 'i' c = decide (num = 'i') := by
    rw [hcs]
    exact altRoman_eval 'i' num m p q r n hx1 hx2 hn
  have hrI : altRoman 'I' c = decide (num = 'I') := by
    rw [hcs]
    exact altRoman_eval 'I' num m p q r n hx1 hx2 hn
  have hspec : specChargeChars c =
      (if c.headD ' ' = '+' then ['+', '1'] else '+' :: natChars n) := by
    rcases hnum with rfl | rfl
    · rw [specChargeChars, hri]
      simp [hcount]
    · rw [specChargeChars, hri, hrI]
      simp [hcount]
  by_cases hmp : m = false ∧ p = true
  · have hhead : c.headD ' ' = '+' := by
      rcases hmp with ⟨rfl, rfl⟩
      rw [hcs]
      simp [optL]
    rw [chargeRender, hsearch, if_pos hmp, hspec, if_pos hhead]
    rfl
  · have hhead : c.headD ' ' ≠ '+' := by
      rw [hcs]
      cases m with
      | true => simp [optL]
      | false =>
        cases p with
        | true => exact absurd ⟨rfl, rfl⟩ hmp
        | false =>
          obtain ⟨k, rfl⟩ : ∃ k, n = k + 1 := ⟨n - 1, by omega⟩
          simpa [optL, List.replicate_succ] using hx1
    rw [chargeRender, hsearch, if_neg hmp, hspec, if_neg hhead]
    simp

theorem altRoman_false_head (num c0 : Char) (t : List Char)
    (h1 : c0 ≠ '-') (h2 : c0 ≠ '+') (h3 : c0 ≠ num) :
    altRoman num (c0 :: t) = false := by
  simp [altRoman, chompOpt, h1, h2, List.takeWhile_cons, h3]

theorem altRoman_false_plus_head (num d : Char) (t : List Char) (hd : d ≠ num) :
    altRoman num ('+' :: d :: t) = false := by
  simp [altRoman, chompOpt, List.takeWhile_cons, hd]

theorem altRoman_false_minus_head (num d : Char) (t : List Char)
    (hd1 : d ≠ '+') (hd2 : d ≠ num) :
    altRoman num ('-' :: d :: t) = false := by
  simp [altRoman, chompOpt, hd1, List.takeWhile_cons, hd2]

theorem searchCharge_digit (ds tail : List Char) (hds : ds ≠ [])
    (hdig : ∀ d ∈ ds, isDigitCh d = true) (htail : tail.takeWhile isDigitCh = [])
    (b : Bool) :
    searchCharge (ds ++ tail) b = some (ChargeGroup.digit ds) := by
  cases ds with
  | nil => exact absurd rfl hds
  | cons d ds2 =>
    obtain ⟨hi, hI, hplus, hminus, -⟩ := digit_facts d (hdig d (by simp))
    rw [List.cons_append, searchCharge, if_neg hi, if_neg hI,
      if_pos (hdig d (by simp)), ← List.cons_append,
      takeWhile_append_all isDigitCh _ _ hdig htail]

theorem altDigitPlus_shape (c : List Char) (h : altDigitPlus c = true) :
    ∃ ds, ds ≠ [] ∧ (∀ d ∈ ds, isDigitCh d = true) ∧ c = ds ++ ['+']
      ∧ c.takeWhile isDigitCh = ds := by
  simp only [altDigitPlus, Bool.and_eq_true, Bool.not_eq_true', List.isEmpty_eq_false,
    decide_eq_true_eq] at h
  refine ⟨c.takeWhile isDigitCh, h.1, fun d hd => List.mem_takeWhile_imp hd, ?_, rfl⟩
  conv_lhs => rw [← List.takeWhile_append_dropWhile (p := isDigitCh) (l := c)]
  rw [h.2]

theorem altDigitMinus_shape (c : List Char) (h : altDigitMinus c = true) :
    ∃ ds, ds ≠ [] ∧ (∀ d ∈ ds, isDigitCh d = true) ∧ c = ds ++ ['-']
      ∧ c.takeWhile isDigitCh = ds := by
  simp only [altDigitMinus, Bool.and_eq_true, Bool.not_eq_true', List.isEmpty_eq_false,
    decide_eq_true_eq] at h
  refine ⟨c.takeWhile isDigitCh, h.1, fun d hd => List.mem_takeWhile_imp hd, ?_, rfl⟩
  conv_lhs => rw [← List.takeWhile_append_dropWhile (p := isDigitCh) (l := c)]
  rw [h.2]

theorem altDigitPlus_false_head (c0 : Char) (t : List Char) (h : isDigitCh c0 = false) :
    altDigitPlus (c0 :: t) = false := by
  simp [altDigitPlus, List.takeWhile_cons, h]

theorem altDigitMinus_false_head (c0 : Char) (t : List Char) (h : isDigitCh c0 = false) :
    altDigitMinus (c0 :: t) = false := by
  simp [altDigitMinus, List.takeWhile_cons, h]

theorem render_digit_plus (c : List Char) (h : altDigitPlus c = true) :
    chargeRender c = some (specChargeChars c) := by
  obtain ⟨ds, hne, hdig, hcs, htw⟩ := altDigitPlus_shape c h
  obtain ⟨d, ds2, rfl⟩ : ∃ d ds2, ds = d :: ds2 := by
    cases ds with
    | nil => exact absurd rfl hne
    | cons d ds2 => exact ⟨d, ds2, rfl⟩
  obtain ⟨hi, hI, hplus, hminus, -⟩ := digit_facts d (hdig d (by simp))
  have hsearch : searchCharge c true = some (ChargeGroup.digit (d :: ds2)) := by
    rw [hcs]
    exact searchCharge_digit _ _ hne hdig (by decide) true
  have hcontains : c.contains '+' = true := by
    exact charContains_eq_true (by simp [hcs])
  have hri : altRoman 'i' c = false := by
    rw [hcs]; exact altRoman_false_head 'i' d _ hminus hplus hi
  have hrI : altRoman 'I' c = false := by
    rw [hcs]; exact altRoman_false_head 'I' d _ hminus hplus hI
  have hspec : specChargeChars c = '+' :: (d :: ds2) := by
    rw [specChargeChars, hri, hrI]
    simp only [Bool.false_eq_true, if_false]
    rw [if_pos h, htw]
  rw [hspec]
  simp only [chargeRender, hsearch]
  rw [if_pos hcontains]

theorem render_digit_minus (c : List Char) (h : altDigitMinus c = true) :
    chargeRender c = some (specChargeChars c) := by
  obtain ⟨ds, hne, hdig, hcs, htw⟩ := altDigitMinus_shape c h
  obtain ⟨d, ds2, rfl⟩ : ∃ d ds2, ds = d :: ds2 := by
    cases ds with
    | nil => exact absurd rfl hne
    | cons d ds2 => exact ⟨d, ds2, rfl⟩
  obtain ⟨hi, hI, hplus, hminus, -⟩ := digit_facts d (hdig d (by simp))
  have hsearch : searchCharge c true = some (ChargeGroup.digit (d :: ds2)) := by
    rw [hcs]
    exact searchCharge_digit _ _ hne hdig (by decide) true
  have hnoplus : c.contains '+' = false := by
    refine charContains_eq_false ?_
    rw [hcs]
    intro hmem
    rcases List.mem_append.mp hmem with hmem2 | hmem2
    · exact (digit_facts '+' (hdig '+' hmem2)).2.2.1 rfl
    · simp at hmem2
  have hcontains : c.contains '-' = true :=
    charContains_eq_true (by simp [hcs])
  have hdp : altDigitPlus c = false := by
    rw [Bool.eq_false_iff]
    intro hc
    obtain ⟨ds3, -, -, hcs2, -⟩ := altDigitPlus_shape c hc
    have hm : ('+' : Char) ∈ c := by simp [hcs2]
    have h2 := charContains_eq_true hm
    rw [h2] at hnoplus
    exact Bool.noConfusion hnoplus
  have hri : altRoman 'i' c = false := by
    rw [hcs]; exact altRoman_false_head 'i' d _ hminus hplus hi
  have hrI : altRoman 'I' c = false := by
    rw [hcs]; exact altRoman_false_head 'I' d _ hminus hplus hI
  have hspec : specChargeChars c = '-' :: (d :: ds2) := by
    rw [specChargeChars, hri, hrI]
    simp only [Bool.false_eq_true, if_false]
    rw [if_neg (by simp [hdp]), if_pos h, htw]
  rw [hspec]
  simp only [chargeRender, hsearch]
  rw [if_neg (by rw [hnoplus]; decide), if_pos hcontains]

theorem altPlusDigit_shape (c : List Char) (h : altPlusDigit c = true) :
    ∃ ds, ds ≠ [] ∧ (∀ d ∈ ds, isDigitCh d = true) ∧ c = '+' :: ds := by
  cases c with
  | nil => exact absurd h (by decide)
  | cons c0 t =>
    simp only [altPlusDigit, Bool.and_eq_true, Bool.not_eq_true', List.isEmpty_eq_false,
      decide_eq_true_eq, List.all_eq_true] at h
    obtain ⟨rfl, hne, hall⟩ := h
    exact ⟨t, hne, fun d hd => hall d hd, rfl⟩

theorem altMinusDigit_shape (c : List Char) (h : altMinusDigit c = true) :
    ∃ ds, ds ≠ [] ∧ (∀ d ∈ ds, isDigitCh d = true) ∧ c = '-' :: ds := by
  cases c with
  | nil => exact absurd h (by decide)
  | cons c0 t =>
    simp only [altMinusDigit, Bool.and_eq_true, Bool.not_eq_true', List.isEmpty_eq_false,
      decide_eq_true_eq, List.all_eq_true] at h
    obtain ⟨rfl, hne, hall⟩ := h
    exact ⟨t, hne, fun d hd => hall d hd, rfl⟩

theorem render_plus_digit (c : List Char) (h : altPlusDigit c = true) :
    chargeRender c = some (specChargeChars c) := by
  obtain ⟨ds, hne, hdig, hcs⟩ := altPlusDigit_shape c h
  obtain ⟨d, ds2, rfl⟩ : ∃ d ds2, ds = d :: ds2 := by
    cases ds with
    | nil => exact absurd rfl hne
    | cons d ds2 => exact ⟨d, ds2, rfl⟩
  obtain ⟨hi, hI, hplus, hminus, -⟩ := digit_facts d (hdig d (by simp))
  have hsearch : searchCharge c true = some (ChargeGroup.signs ['+']) := by
    rw [hcs, searchCharge, if_neg (by decide), if_neg (by decide), if_neg (by decide),
      if_pos (by decide), List.takeWhile_cons, if_pos (by decide),
      List.takeWhile_cons, if_neg (by simpa using hplus)]
  have hri : altRoman 'i' c = false := by
    rw [hcs]; exact altRoman_false_plus_head 'i' d _ hi
  have hrI : altRoman 'I' c = false := by
    rw [hcs]; exact altRoman_false_plus_head 'I' d _ hI
  have hdp : altDigitPlus c = false := by
    rw [hcs]; exact altDigitPlus_false_head '+' _ (by decide)
  have hdm : altDigitMinus c = false := by
    rw [hcs]; exact altDigitMinus_false_head '+' _ (by decide)
  have hspec : specChargeChars c = ['+', '1'] := by
    rw [specChargeChars, hri, hrI]
    simp only [Bool.false_eq_true, if_false]
    rw [if_neg (by rw [hdp]; decide), if_neg (by rw [hdm]; decide), if_pos h]
  rw [hspec]
  simp only [chargeRender, hsearch]
  rfl

theorem render_minus_digit (c : List Char) (h : altMinusDigit c = true) :
    chargeRender c = some (specChargeChars c) := by
  obtain ⟨ds, hne, hdig, hcs⟩ := altMinusDigit_shape c h
  obtain ⟨d, ds2, rfl⟩ : ∃ d ds2, ds = d :: ds2 := by
    cases ds with
    | nil => exact absurd rfl hne
    | cons d ds2 => exact ⟨d, ds2, rfl⟩
  obtain ⟨hi, hI, hplus, hminus, -⟩ := digit_facts d (hdig d (by simp))
  have hsearch : searchCharge c true = some (ChargeGroup.digit (d :: ds2)) := by
    rw [hcs, searchCharge, if_neg (by decide), if_neg (by decide), if_neg (by decide),
      if_neg (by decide), if_neg ?_]
    · have := searchCharge_digit (d :: ds2) [] hne hdig rfl false
      simpa using this
    · rw [Bool.and_eq_true]
      rintro ⟨-, habs⟩
      rw [List.dropWhile_cons, if_pos (by decide), List.dropWhile_cons,
        if_neg (by simpa using hminus)] at habs
      simp at habs
  have hnoplus : c.contains '+' = false := by
    refine charContains_eq_false ?_
    rw [hcs]
    intro hmem
    rcases List.mem_cons.mp hmem with hmem2 | hmem2
    · exact absurd hmem2.symm (by decide)
    · exact (digit_facts '+' (hdig '+' hmem2)).2.2.1 rfl
  have hcontains : c.contains '-' = true :=
    charContains_eq_true (by simp [hcs])
  have hri : altRoman 'i' c = false := by
    rw [hcs]; exact altRoman_false_minus_head 'i' d _ hplus hi
  have hrI : altRoman 'I' c = false := by
    rw [hcs]; exact altRoman_false_minus_head 'I' d _ hplus hI
  have hdp : altDigitPlus c = false := by
    rw [hcs]; exact altDigitPlus_false_head '-' _ (by decide)
  have hdm : altDigitMinus c = false := by
    rw [hcs]; exact altDigitMinus_false_head '-' _ (by decide)
  have hpd : altPlusDigit c = false := by
    rw [hcs]
    simp [altPlusDigit]
  have hspec : specChargeChars c = '-' :: (d :: ds2) := by
    rw [specChargeChars, hri, hrI]
    simp only [Bool.false_eq_true, if_false]
    rw [if_neg (by rw [hdp]; decide), if_neg (by rw [hdm]; decide),
      if_neg (by rw [hpd]; decide), if_pos h, hcs]
    rfl
  rw [hspec]
  simp only [chargeRender, hsearch]
  rw [if_neg (by rw [hnoplus]; decide), if_pos hcontains]

theorem altPlusRun_shape (c : List Char) (h : altPlusRun c = true) :
    ∃ n, 0 < n ∧ c = List.replicate n '+' := by
  simp only [altPlusRun, Bool.and_eq_true, Bool.not_eq_true', List.isEmpty_eq_false,
    List.all_eq_true] at h
  refine ⟨c.length, by cases c with | nil => exact absurd rfl h.1 | cons a t => simp, ?_⟩
  refine List.eq_replicate_length.mpr (fun b hb => ?_)
  simpa using h.2 b hb

theorem altMinusRun_shape (c : List Char) (h : altMinusRun c = true) :
    ∃ n, 0 < n ∧ c = List.replicate n '-' := by
  simp only [altMinusRun, Bool.and_eq_true, Bool.not_eq_true', List.isEmpty_eq_false,
    List.all_eq_true] at h
  refine ⟨c.length, by cases c with | nil => exact absurd rfl h.1 | cons a t => simp, ?_⟩
  refine List.eq_replicate_length.mpr (fun b hb => ?_)
  simpa using h.2 b hb

theorem altRoman_false_plusRun (num : Char) (h : num ≠ '+') (n : Nat) :
    altRoman num (List.replicate n '+') = false := by
  cases n with
  | zero => simp [altRoman, chompOpt]
  | succ k =>
    cases k with
    | zero => simp [altRoman, chompOpt, List.replicate_succ]
    | succ j =>
      simp [altRoman, chompOpt, List.replicate_succ, List.takeWhile_cons, Ne.symm h]

theorem altRoman_false_minusRun (num : Char) (h : num ≠ '-') (n : Nat) :
    altRoman num (List.replicate n '-') = false := by
  cases n with
  | zero => simp [altRoman, chompOpt]
  | succ k =>
    cases k with
    | zero => simp [altRoman, chompOpt, List.replicate_succ]
    | succ j =>
      simp [altRoman, chompOpt, List.replicate_succ, List.takeWhile_cons, Ne.symm h]

theorem searchCharge_plusRun (n : Nat) (hn : 0 < n) :
    searchCharge (List.replicate n '+') true = some (ChargeGroup.signs (List.replicate n '+')) := by
  obtain ⟨k, rfl⟩ : ∃ k, n = k + 1 := ⟨n - 1, by omega⟩
  rw [List.replicate_succ, searchCharge, if_neg (by decide), if_neg (by decide),
    if_neg (by decide), if_pos (by decide), ← List.replicate_succ,
    takeWhile_all _ _ (fun d hd => by simp [List.eq_of_mem_replicate hd])]

theorem searchCharge_minusRun (n : Nat) (hn : 0 < n) (b : Bool) :
    searchCharge (List.replicate n '-') b = some (ChargeGroup.signs (List.replicate n '-')) := by
  obtain ⟨k, rfl⟩ : ∃ k, n = k + 1 := ⟨n - 1, by omega⟩
  have hdrop : (List.replicate (k + 1) '-').dropWhile (· = '-') = [] := by
    have h0 := dropWhile_append_all (· = '-') (List.replicate (k + 1) '-') []
      (fun d hd => by simp [List.eq_of_mem_replicate hd])
    simp only [List.append_nil, List.dropWhile_nil] at h0
    exact h0
  rw [List.replicate_succ, searchCharge, if_neg (by decide), if_neg (by decide),
    if_neg (by decide), if_neg (by simp), ← List.replicate_succ]
  rw [if_pos (by rw [hdrop]; simp),
    takeWhile_all _ _ (fun d hd => by simp [List.eq_of_mem_replicate hd])]

theorem render_plus_run (c : List Char) (h : altPlusRun c = true) :
    chargeRender c = some (specChargeChars c) := by
  obtain ⟨n, hn, hcs⟩ := altPlusRun_shape c h
  obtain ⟨k, rfl⟩ : ∃ k, n = k + 1 := ⟨n - 1, by omega⟩
  have hsearch : searchCharge c true = some (ChargeGroup.signs (List.replicate (k + 1) '+')) := by
    rw [hcs]; exact searchCharge_plusRun (k + 1) hn
  have hri : altRoman 'i' c = false := by
    rw [hcs]; exact altRoman_false_plusRun 'i' (by decide) _
  have hrI : altRoman 'I' c = false := by
    rw [hcs]; exact altRoman_false_plusRun 'I' (by decide) _
  have hdp : altDigitPlus c = false := by
    rw [hcs, List.replicate_succ]; exact altDigitPlus_false_head '+' _ (by decide)
  have hdm : altDigitMinus c = false := by
    rw [hcs, List.replicate_succ]; exact altDigitMinus_false_head '+' _ (by decide)
  have hpd : altPlusDigit c = false := by
    rw [hcs, List.replicate_succ]
    cases k with
    | zero => decide
    | succ j =>
      simp [altPlusDigit, List.replicate_succ, List.all_cons]
      exact fun habs => absurd habs (by decide)
  have hmd : altMinusDigit c = false := by
    rw [hcs, List.replicate_succ]
    simp [altMinusDigit]
  have hspec : specChargeChars c = '+' :: natChars (k + 1) := by
    rw [specChargeChars, hri, hrI]
    simp only [Bool.false_eq_true, if_false]
    rw [if_neg (by rw [hdp]; decide), if_neg (by rw [hdm]; decide),
      if_neg (by rw [hpd]; decide), if_neg (by rw [hmd]; decide), if_pos h, hcs,
      List.length_replicate]
  rw [hspec]
  simp only [chargeRender, hsearch]
  simp [List.replicate_succ]

theorem render_minus_run (c : List Char) (h : altMinusRun c = true) :
    chargeRender c = some (specChargeChars c) := by
  obtain ⟨n, hn, hcs⟩ := altMinusRun_shape c h
  obtain ⟨k, rfl⟩ : ∃ k, n = k + 1 := ⟨n - 1, by omega⟩
  have hsearch : searchCharge c true = some (ChargeGroup.signs (List.replicate (k + 1) '-')) := by
    rw [hcs]; exact searchCharge_minusRun (k + 1) hn true
  have hri : altRoman 'i' c = false := by
    rw [hcs]; exact altRoman_false_minusRun 'i' (by decide) _
  have hrI : altRoman 'I' c = false := by
    rw [hcs]; exact altRoman_false_minusRun 'I' (by decide) _
  have hdp : altDigitPlus c = false := by
    rw [hcs, List.replicate_succ]; exact altDigitPlus_false_head '-' _ (by decide)
  have hdm : altDigitMinus c = false := by
    rw [hcs, List.replicate_succ]; exact altDigitMinus_false_head '-' _ (by decide)
  have hpd : altPlusDigit c = false := by
    rw [hcs, List.replicate_succ]
    simp [altPlusDigit]
  have hmd : altMinusDigit c = false := by
    rw [hcs, List.replicate_succ]
    cases k with
    | zero => decide
    | succ j =>
      simp [altMinusDigit, List.replicate_succ, List.all_cons]
      exact fun habs => absurd habs (by decide)
  have hpr : altPlusRun c = false := by
    rw [hcs, List.replicate_succ]
    simp [altPlusRun, List.all_cons]
  have hspec : specChargeChars c = '-' :: natChars (k + 1) := by
    rw [specChargeChars, hri, hrI]
    simp only [Bool.false_eq_true, if_false]
    rw [if_neg (by rw [hdp]; decide), if_neg (by rw [hdm]; decide),
      if_neg (by rw [hpd]; decide), if_neg (by rw [hmd]; decide),
      if_neg (by rw [hpr]; decide), hcs, List.length_replicate]
  rw [hspec]
  simp only [chargeRender, hsearch]
  simp [List.replicate_succ]

theorem chargeRender_spec (c : List Char) (h : isCharge c = true) :
    chargeRender c = some (specChargeChars c) := by
  simp only [isCharge, Bool.or_eq_true] at h
  rcases h with ((((((h | h) | h) | h) | h) | h) | h) | h
  · exact render_roman 'i' (Or.inl rfl) c h
  · exact render_roman 'I' (Or.inr rfl) c h
  · exact render_digit_plus c h
  · exact render_digit_minus c h
  · exact render_plus_digit c h
  · exact render_minus_digit c h
  · exact render_plus_run c h
  · exact render_minus_run c h

theorem ionTail_isCharge (cs charge : List Char) (h : ionTail cs = some charge) :
    isCharge charge = true := by
  unfold ionTail at h
  split at h
  · split at h
    · split at h
      · rename_i hcond
        cases h
        simp only [Bool.and_eq_true] at hcond
        exact hcond.2
      · exact absurd h (by simp)
    · exact absurd h (by simp)
  · exact absurd h (by simp)

theorem ionMatch_isCharge (s e c : List Char) (h : ionMatch s = some (e, c)) :
    isCharge c = true := by
  unfold ionMatch at h
  split at h
  · exact absurd h (by simp)
  · split at h
    · split at h
      · exact absurd h (by simp)
      · split at h
        · split at h
          · rename_i ch hch
            cases h
            exact ionTail_isCharge _ _ hch
          · split at h
            · rename_i ch hch
              cases h
              exact ionTail_isCharge _ _ hch
            · exact absurd h (by simp)
        · split at h
          · rename_i ch hch
            cases h
            exact ionTail_isCharge _ _ hch
          · exact absurd h (by simp)
    · exact absurd h (by simp)

/-- Claim C4 (corrected), counterexample: on the grammar-valid ion string
`Cu(+2)` the claim's resolution (precedence roman over digit over
repeated-sign, digit magnitude with adjacent sign) predicts `[Cu+2]`, but
the code's charge regex scans positions left to right, so the anchored
leading `+` run matches first and the code emits `[Cu+1]`. -/
theorem ion_parser_claim_counterexample :
    ionSmiles "Cu(+2)".data = some "[Cu+1]".data
    ∧ claimIonOut "Cu(+2)".data = some "[Cu+2]".data
    ∧ ionSmiles "Cu(+2)".data ≠ claimIonOut "Cu(+2)".data := by
  refine ⟨by decide, by decide, by decide⟩

/-- Claim C4 (amended): for every string matching the ion grammar the
parser emits `[<Element><sign><magnitude>]`, where the charge resolves by
leftmost match with precedence roman over digit over sign run at each
position: a Roman-numeral charge yields the numeral count with positive
sign (also with a leading `-` or trailing signs), a digit charge with its
sign adjacent (trailing `+`/`-`, or leading `-`) yields the digit
characters with that sign, a repeated-sign charge yields the run length
with that sign, and a charge beginning with `+` followed by digits or
numerals resolves as the one-character leading sign run, giving `+1`.
Every string not matching the grammar is reported as not an ion (`none`)
without raising. -/
theorem ion_parser_characterization :
    (∀ s e c, ionMatch s = some (e, c) →
      ionSmiles s = some ('[' :: (e ++ specChargeChars c ++ [']'])))
    ∧ (∀ s, ionMatch s = none → ionSmiles s = none) := by
  constructor
  · intro s e c h
    have hcharge := ionMatch_isCharge s e c h
    simp only [ionSmiles, h, chargeRender_spec c hcharge]
    simp
  · intro s h
    simp only [ionSmiles, h]

theorem ion_parser_characterization_witness :
    ionSmiles "Cu(2+)".data =
      some ('[' :: ("Cu".data ++ specChargeChars "2+".data ++ [']']))
    ∧ ionSmiles "aspirin".data = none :=
  ⟨ion_parser_characterization.1 "Cu(2+)".data "Cu".data "2+".data (by decide),
   ion_parser_characterization.2 "aspirin".data (by decide)⟩

/-! ### ResultMerger ordering (C7) -/

theorem mem_insertByPage (x a : OsraEnt) (l : List OsraEnt) :
    a ∈ insertByPage x l ↔ a = x ∨ a ∈ l := by
  induction l with
  | nil => simp [insertByPage]
  | cons y ys ih =>
    by_cases h : x.page ≤ y.page
    · simp [insertByPage, h]
    · simp only [insertByPage, if_neg h, List.mem_cons, ih]
      tauto

theorem pairwise_insertByPage (x : OsraEnt) (l : List OsraEnt)
    (h : l.Pairwise (fun a b => a.page ≤ b.page)) :
    (insertByPage x l).Pairwise (fun a b => a.page ≤ b.page) := by
  induction l with
  | nil => simp [insertByPage]
  | cons y ys ih =>
    rcases List.pairwise_cons.mp h with ⟨hy, hys⟩
    by_cases hle : x.page ≤ y.page
    · rw [insertByPage, if_pos hle]
      refine List.pairwise_cons.mpr ⟨?_, h⟩
      intro a ha
      rcases List.mem_cons.mp ha with rfl | ha2
      · exact hle
      · exact le_trans hle (hy a ha2)
    · rw [insertByPage, if_neg hle]
      refine List.pairwise_cons.mpr ⟨?_, ih hys⟩
      intro a ha
      rcases (mem_insertByPage x a ys).mp ha with rfl | ha2
      · exact le_of_not_le hle
      · exact hy a ha2

theorem sortByPage_sorted (l : List OsraEnt) :
    (sortByPage l).Pairwise (fun a b => a.page ≤ b.page) := by
  induction l with
  | nil => simp [sortByPage]
  | cons x xs ih => exact pairwise_insertByPage x (sortByPage xs) ih

theorem mPage_osraToM (ann : Bool) (e : OsraEnt) : mPage (osraToM ann e) = e.page := rfl

theorem source_osraToM (ann : Bool) (e : OsraEnt) : (osraToM ann e).source = "osra" := rfl

theorem nerJoin_spec (ann : Bool) (types : List String) :
    ∀ (ner : List NerEnt) (ops : List OpsinRec) (b : List MEnt),
      nerJoin ann types ner ops = some b →
      b.map MEnt.entity = ner.map NerEnt.entity ∧ ∀ y ∈ b, y.source = "chemspot" := by
  intro ner
  induction ner with
  | nil =>
    intro ops b h
    cases h
    simp
  | cons e rest ih =>
    intro ops b h
    by_cases ht : e.type ∈ types
    · simp only [nerJoin] at h
      rw [if_pos ht] at h
      cases ops with
      | nil => exact absurd h (by simp)
      | cons op ops2 =>
        rcases Option.map_eq_some'.mp h with ⟨b2, hb2, rfl⟩
        obtain ⟨hmap, hsrc⟩ := ih ops2 b2 hb2
        refine ⟨by simp [hmap, nerToM], ?_⟩
        intro y hy
        rcases List.mem_cons.mp hy with rfl | hy2
        · rfl
        · exact hsrc y hy2
    · simp only [nerJoin] at h
      rw [if_neg ht] at h
      rcases Option.map_eq_some'.mp h with ⟨b2, hb2, rfl⟩
      obtain ⟨hmap, hsrc⟩ := ih ops b2 hb2
      refine ⟨by simp [hmap, nerToM], ?_⟩
      intro y hy
      rcases List.mem_cons.mp hy with rfl | hy2
      · rfl
      · exact hsrc y hy2

/-- Claim C7: the merged result list of the extractor is the
structure-recognizer rows (in ascending page order, as sorted by the OSRA
processor) followed by the text-recognizer rows in their original
detection order. -/
theorem extractor_merge_order (ann : Bool) (types : List String)
    (ocsr : List OsraEnt) (ner : List NerEnt) (ops : List OpsinRec)
    (res : List MEnt)
    (h : joinResults ann types (sortByPage ocsr) ner ops = some res) :
    ∃ A B, res = A ++ B
      ∧ (∀ x ∈ A, x.source = "osra")
      ∧ (∀ y ∈ B, y.source = "chemspot")
      ∧ A.Pairwise (fun a b => mPage a ≤ mPage b)
      ∧ B.map MEnt.entity = ner.map NerEnt.entity := by
  rcases Option.map_eq_some'.mp h with ⟨b, hb, rfl⟩
  obtain ⟨hmap, hsrc⟩ := nerJoin_spec ann types ner ops b hb
  refine ⟨(sortByPage ocsr).map (osraToM ann), b, rfl, ?_, hsrc, ?_, hmap⟩
  · intro x hx
    rcases List.mem_map.mp hx with ⟨o, -, rfl⟩
    rfl
  · rw [List.pairwise_map]
    exact sortByPage_sorted ocsr

theorem extractor_merge_order_witness :
    ∃ A B, [osraToM false (osraD 1), osraToM false (osraD 2),
            nerToM false (nerD "TRIVIAL" "aspirin") none] = A ++ B
      ∧ (∀ x ∈ A, x.source = "osra")
      ∧ (∀ y ∈ B, y.source = "chemspot")
      ∧ A.Pairwise (fun a b => mPage a ≤ mPage b)
      ∧ B.map MEnt.entity = [nerD "TRIVIAL" "aspirin"].map NerEnt.entity :=
  extractor_merge_order false ["SYSTEMATIC"] [osraD 2, osraD 1]
    [nerD "TRIVIAL" "aspirin"] []
    [osraToM false (osraD 1), osraToM false (osraD 2),
     nerToM false (nerD "TRIVIAL" "aspirin") none] (by decide)

/-! ### DatabaseReconciler (C1, C2, C3) -/

theorem pyOr_ne (a b : String) (h : b ≠ "") : pyOr a b ≠ "" := by
  unfold pyOr
  split
  · exact h
  · assumption

theorem updIdentifiers_keep (e : Ent) (s i k : String) :
    (s = "" → (updIdentifiers e s i k).smiles = e.smiles)
    ∧ (i = "" → (updIdentifiers e s i k).inchi = e.inchi)
    ∧ (k = "" → (updIdentifiers e s i k).inchikey = e.inchikey) := by
  refine ⟨fun h => ?_, fun h => ?_, fun h => ?_⟩ <;> simp [updIdentifiers, pyOr, h]

theorem pchIkUpdate_single_ids (e : Ent) (c : Bool) (r : PchCompound) :
    (pchIkUpdate e c [r]).smiles = (if c then e.smiles else pyOr r.canonical_smiles e.smiles)
    ∧ (pchIkUpdate e c [r]).inchi = (if c then e.inchi else pyOr r.inchi e.inchi)
    ∧ (pchIkUpdate e c [r]).inchikey = (if c then e.inchikey else pyOr r.inchikey e.inchikey) := by
  unfold pchIkUpdate updIdentifiers
  cases c <;> by_cases hsyn : r.synonyms.isEmpty <;> simp [hsyn]

theorem chsIkUpdate_single_ids (e : Ent) (c : Bool) (r : ChsCompound) :
    (chsIkUpdate e c [r]).smiles = (if c then e.smiles else pyOr r.smiles e.smiles)
    ∧ (chsIkUpdate e c [r]).inchi = (if c then e.inchi else pyOr r.stdinchi e.inchi)
    ∧ (chsIkUpdate e c [r]).inchikey = (if c then e.inchikey else pyOr r.stdinchikey e.inchikey) := by
  unfold chsIkUpdate updIdentifiers
  cases c <;> simp

theorem pchNameUpdate_single_ids (e : Ent) (c : Bool) (r : PchCompound) :
    (pchNameUpdate e c [r]).smiles = (if c then e.smiles else pyOr r.canonical_smiles e.smiles)
    ∧ (pchNameUpdate e c [r]).inchi = (if c then e.inchi else pyOr r.inchi e.inchi)
    ∧ (pchNameUpdate e c [r]).inchikey = (if c then e.inchikey else pyOr r.inchikey e.inchikey) := by
  unfold pchNameUpdate updIdentifiers
  cases c <;> by_cases hsyn : r.synonyms.isEmpty <;> simp [hsyn]

theorem chsNameUpdate_single_ids (e : Ent) (c : Bool) (r : ChsCompound) :
    (chsNameUpdate e c [r]).smiles = (if c then e.smiles else pyOr r.smiles e.smiles)
    ∧ (chsNameUpdate e c [r]).inchi = (if c then e.inchi else pyOr r.stdinchi e.inchi)
    ∧ (chsNameUpdate e c [r]).inchikey = (if c then e.inchikey else pyOr r.stdinchikey e.inchikey) := by
  unfold chsNameUpdate updIdentifiers
  cases c <;> simp

theorem pchIkUpdate_ids_ne (e : Ent) (c : Bool) (rs : List PchCompound) :
    (e.smiles ≠ "" → (pchIkUpdate e c rs).smiles ≠ "")
    ∧ (e.inchi ≠ "" → (pchIkUpdate e c rs).inchi ≠ "")
    ∧ (e.inchikey ≠ "" → (pchIkUpdate e c rs).inchikey ≠ "") := by
  rcases rs with _ | ⟨r, _ | ⟨r2, rs2⟩⟩
  · simp [pchIkUpdate]
  · obtain ⟨h1, h2, h3⟩ := pchIkUpdate_single_ids e c r
    refine ⟨fun h => ?_, fun h => ?_, fun h => ?_⟩
    · rw [h1]; cases c
      · simpa using pyOr_ne _ _ h
      · simpa using h
    · rw [h2]; cases c
      · simpa using pyOr_ne _ _ h
      · simpa using h
    · rw [h3]; cases c
      · simpa using pyOr_ne _ _ h
      · simpa using h
  · unfold pchIkUpdate
    exact ⟨fun h => h, fun h => h, fun h => h⟩

theorem chsIkUpdate_ids_ne (e : Ent) (c : Bool) (rs : List ChsCompound) :
    (e.smiles ≠ "" → (chsIkUpdate e c rs).smiles ≠ "")
    ∧ (e.inchi ≠ "" → (chsIkUpdate e c rs).inchi ≠ "")
    ∧ (e.inchikey ≠ "" → (chsIkUpdate e c rs).inchikey ≠ "") := by
  rcases rs with _ | ⟨r, _ | ⟨r2, rs2⟩⟩
  · simp [chsIkUpdate]
  · obtain ⟨h1, h2, h3⟩ := chsIkUpdate_single_ids e c r
    refine ⟨fun h => ?_, fun h => ?_, fun h => ?_⟩
    · rw [h1]; cases c
      · simpa using pyOr_ne _ _ h
      · simpa using h
    · rw [h2]; cases c
      · simpa using pyOr_ne _ _ h
      · simpa using h
    · rw [h3]; cases c
      · simpa using pyOr_ne _ _ h
      · simpa using h
  · unfold chsIkUpdate
    exact ⟨fun h => h, fun h => h, fun h => h⟩

theorem pchNameUpdate_ids_ne (e : Ent) (c : Bool) (rs : List PchCompound) :
    (e.smiles ≠ "" → (pchNameUpdate e c rs).smiles ≠ "")
    ∧ (e.inchi ≠ "" → (pchNameUpdate e c rs).inchi ≠ "")
    ∧ (e.inchikey ≠ "" → (pchNameUpdate e c rs).inchikey ≠ "") := by
  rcases rs with _ | ⟨r, _ | ⟨r2, rs2⟩⟩
  · simp [pchNameUpdate]
  · obtain ⟨h1, h2, h3⟩ := pchNameUpdate_single_ids e c r
    refine ⟨fun h => ?_, fun h => ?_, fun h => ?_⟩
    · rw [h1]; cases c
      · simpa using pyOr_ne _ _ h
      · simpa using h
    · rw [h2]; cases c
      · simpa using pyOr_ne _ _ h
      · simpa using h
    · rw [h3]; cases c
      · simpa using pyOr_ne _ _ h
      · simpa using h
  · unfold pchNameUpdate
    exact ⟨fun h => h, fun h => h, fun h => h⟩

theorem chsNameUpdate_ids_ne (e : Ent) (c : Bool) (rs : List ChsCompound) :
    (e.smiles ≠ "" → (chsNameUpdate e c rs).smiles ≠ "")
    ∧ (e.inchi ≠ "" → (chsNameUpdate e c rs).inchi ≠ "")
    ∧ (e.inchikey ≠ "" → (chsNameUpdate e c rs).inchikey ≠ "") := by
  rcases rs with _ | ⟨r, _ | ⟨r2, rs2⟩⟩
  · simp [chsNameUpdate]
  · obtain ⟨h1, h2, h3⟩ := chsNameUpdate_single_ids e c r
    refine ⟨fun h => ?_, fun h => ?_, fun h => ?_⟩
    · rw [h1]; cases c
      · simpa using pyOr_ne _ _ h
      · simpa using h
    · rw [h2]; cases c
      · simpa using pyOr_ne _ _ h
      · simpa using h
    · rw [h3]; cases c
      · simpa using pyOr_ne _ _ h
      · simpa using h
  · unfold chsNameUpdate
    exact ⟨fun h => h, fun h => h, fun h => h⟩

theorem pchIkUpdate_ids_multi (e : Ent) (c : Bool) (rs : List PchCompound)
    (h : rs.length ≠ 1) : idsOf (pchIkUpdate e c rs) = idsOf e := by
  rcases rs with _ | ⟨r, _ | ⟨r2, rs2⟩⟩
  · simp [pchIkUpdate, idsOf]
  · exact absurd (show List.length [r] = 1 from rfl) h
  · simp [pchIkUpdate, idsOf]

theorem chsIkUpdate_ids_multi (e : Ent) (c : Bool) (rs : List ChsCompound)
    (h : rs.length ≠ 1) : idsOf (chsIkUpdate e c rs) = idsOf e := by
  rcases rs with _ | ⟨r, _ | ⟨r2, rs2⟩⟩
  · simp [chsIkUpdate, idsOf]
  · exact absurd (show List.length [r] = 1 from rfl) h
  · simp [chsIkUpdate, idsOf]

theorem pchNameUpdate_ids_multi (e : Ent) (c : Bool) (rs : List PchCompound)
    (h : rs.length ≠ 1) : idsOf (pchNameUpdate e c rs) = idsOf e := by
  rcases rs with _ | ⟨r, _ | ⟨r2, rs2⟩⟩
  · simp [pchNameUpdate, idsOf]
  · exact absurd (show List.length [r] = 1 from rfl) h
  · simp [pchNameUpdate, idsOf]

theorem chsNameUpdate_ids_multi (e : Ent) (c : Bool) (rs : List ChsCompound)
    (h : rs.length ≠ 1) : idsOf (chsNameUpdate e c rs) = idsOf e := by
  rcases rs with _ | ⟨r, _ | ⟨r2, rs2⟩⟩
  · simp [chsNameUpdate, idsOf]
  · exact absurd (show List.length [r] = 1 from rfl) h
  · simp [chsNameUpdate, idsOf]

theorem pchInchikeyStep_flags (o : Oracle) (s : AnnState) :
    (pchInchikeyStep o s).found_in_pch = s.found_in_pch
    ∧ (pchInchikeyStep o s).found_in_chs = s.found_in_chs := ⟨rfl, rfl⟩

theorem chsInchikeyStep_flags (o : Oracle) (s : AnnState) :
    (chsInchikeyStep o s).found_in_pch = s.found_in_pch
    ∧ (chsInchikeyStep o s).found_in_chs = s.found_in_chs := ⟨rfl, rfl⟩

theorem pchInchikeyStep_log (o : Oracle) (s : AnnState) :
    (pchInchikeyStep o s).log =
      s.log ++ [⟨DBase.pch, SearchKind.inchikey, s.ent.inchikey⟩] := rfl

theorem chsInchikeyStep_log (o : Oracle) (s : AnnState) :
    (chsInchikeyStep o s).log =
      s.log ++ [⟨DBase.chs, SearchKind.inchikey, s.ent.inchikey⟩] := rfl

theorem pchInchikeyStep_ids_ne (o : Oracle) (s : AnnState) :
    (s.ent.smiles ≠ "" → (pchInchikeyStep o s).ent.smiles ≠ "")
    ∧ (s.ent.inchi ≠ "" → (pchInchikeyStep o s).ent.inchi ≠ "")
    ∧ (s.ent.inchikey ≠ "" → (pchInchikeyStep o s).ent.inchikey ≠ "") :=
  pchIkUpdate_ids_ne s.ent s.found_in_chs _

theorem chsInchikeyStep_ids_ne (o : Oracle) (s : AnnState) :
    (s.ent.smiles ≠ "" → (chsInchikeyStep o s).ent.smiles ≠ "")
    ∧ (s.ent.inchi ≠ "" → (chsInchikeyStep o s).ent.inchi ≠ "")
    ∧ (s.ent.inchikey ≠ "" → (chsInchikeyStep o s).ent.inchikey ≠ "") :=
  chsIkUpdate_ids_ne s.ent s.found_in_pch _

theorem pchNameStep_found_chs (o : Oracle) (s : AnnState) :
    (pchNameStep o s).found_in_chs = s.found_in_chs := by
  unfold pchNameStep
  split <;> rfl

theorem chsNameStep_found_pch (o : Oracle) (s : AnnState) :
    (chsNameStep o s).found_in_pch = s.found_in_pch := by
  unfold chsNameStep
  split <;> rfl

theorem pchNameStep_log (o : Oracle) (s : AnnState) :
    ∃ t, (pchNameStep o s).log = s.log ++ t := by
  unfold pchNameStep
  split
  · exact ⟨_, rfl⟩
  · exact ⟨[], by simp⟩

theorem chsNameStep_log (o : Oracle) (s : AnnState) :
    ∃ t, (chsNameStep o s).log = s.log ++ t := by
  unfold chsNameStep
  split
  · exact ⟨_, rfl⟩
  · exact ⟨[], by simp⟩

theorem pchNameStep_ids_ne (o : Oracle) (s : AnnState) :
    (s.ent.smiles ≠ "" → (pchNameStep o s).ent.smiles ≠ "")
    ∧ (s.ent.inchi ≠ "" → (pchNameStep o s).ent.inchi ≠ "")
    ∧ (s.ent.inchikey ≠ "" → (pchNameStep o s).ent.inchikey ≠ "") := by
  unfold pchNameStep
  split
  · exact pchNameUpdate_ids_ne s.ent s.found_in_chs _
  · exact ⟨fun h => h, fun h => h, fun h => h⟩

theorem chsNameStep_ids_ne (o : Oracle) (s : AnnState) :
    (s.ent.smiles ≠ "" → (chsNameStep o s).ent.smiles ≠ "")
    ∧ (s.ent.inchi ≠ "" → (chsNameStep o s).ent.inchi ≠ "")
    ∧ (s.ent.inchikey ≠ "" → (chsNameStep o s).ent.inchikey ≠ "") := by
  unfold chsNameStep
  split
  · exact chsNameUpdate_ids_ne s.ent s.found_in_pch _
  · exact ⟨fun h => h, fun h => h, fun h => h⟩

theorem smilesStep_ids (o : Oracle) (s : AnnState) :
    (smilesStep o s).ent.smiles = s.ent.smiles
    ∧ (smilesStep o s).ent.inchi = s.ent.inchi
    ∧ (smilesStep o s).ent.inchikey = s.ent.inchikey
    ∧ (smilesStep o s).found_in_pch = s.found_in_pch
    ∧ (smilesStep o s).found_in_chs = s.found_in_chs := by
  unfold smilesStep
  split
  · dsimp only
    split_ifs <;> exact ⟨rfl, rfl, rfl, rfl, rfl⟩
  · exact ⟨rfl, rfl, rfl, rfl, rfl⟩

theorem inchiStep_ids (o : Oracle) (s : AnnState) :
    (inchiStep o s).ent.smiles = s.ent.smiles
    ∧ (inchiStep o s).ent.inchi = s.ent.inchi
    ∧ (inchiStep o s).ent.inchikey = s.ent.inchikey
    ∧ (inchiStep o s).found_in_pch = s.found_in_pch
    ∧ (inchiStep o s).found_in_chs = s.found_in_chs := by
  unfold inchiStep
  split
  · dsimp only
    split_ifs <;> exact ⟨rfl, rfl, rfl, rfl, rfl⟩
  · exact ⟨rfl, rfl, rfl, rfl, rfl⟩

theorem formulaStep_ids (o : Oracle) (s : AnnState) :
    (formulaStep o s).ent.smiles = s.ent.smiles
    ∧ (formulaStep o s).ent.inchi = s.ent.inchi
    ∧ (formulaStep o s).ent.inchikey = s.ent.inchikey
    ∧ (formulaStep o s).found_in_pch = s.found_in_pch
    ∧ (formulaStep o s).found_in_chs = s.found_in_chs := by
  unfold formulaStep
  dsimp only
  split_ifs <;> exact ⟨rfl, rfl, rfl, rfl, rfl⟩

theorem smilesStep_log (o : Oracle) (s : AnnState) :
    ∃ t, (smilesStep o s).log = s.log ++ t := by
  unfold smilesStep
  split
  · dsimp only
    split_ifs <;>
      first
        | exact ⟨_, rfl⟩
        | exact ⟨_, List.append_assoc _ _ _⟩
        | exact ⟨[], (List.append_nil _).symm⟩
  · exact ⟨[], by simp⟩

theorem inchiStep_log (o : Oracle) (s : AnnState) :
    ∃ t, (inchiStep o s).log = s.log ++ t := by
  unfold inchiStep
  split
  · dsimp only
    split_ifs <;>
      first
        | exact ⟨_, rfl⟩
        | exact ⟨_, List.append_assoc _ _ _⟩
        | exact ⟨[], (List.append_nil _).symm⟩
  · exact ⟨[], by simp⟩

theorem formulaStep_log (o : Oracle) (s : AnnState) :
    ∃ t, (formulaStep o s).log = s.log ++ t := by
  unfold formulaStep
  dsimp only
  split_ifs <;>
    first
      | exact ⟨_, rfl⟩
      | exact ⟨_, List.append_assoc _ _ _⟩
      | exact ⟨[], (List.append_nil _).symm⟩

theorem append_ne_of_ne_nil {α : Type} (l t : List α) (h : t ≠ []) : l ++ t ≠ l := by
  intro hc
  have hlen := congrArg List.length hc
  rw [List.length_append] at hlen
  have ht : t.length = 0 := by omega
  exact h (List.eq_nil_of_length_eq_zero ht)

theorem pchNameStep_skip (o : Oracle) (s : AnnState) (h : s.found_in_pch = true) :
    pchNameStep o s = s := by
  unfold pchNameStep
  split
  · rename_i hcond
    rw [h] at hcond
    simp at hcond
  · rfl

theorem chsNameStep_skip (o : Oracle) (s : AnnState) (h : s.found_in_chs = true) :
    chsNameStep o s = s := by
  unfold chsNameStep
  split
  · rename_i hcond
    rw [h] at hcond
    simp at hcond
  · rfl

theorem smilesStep_noop (o : Oracle) (s : AnnState) (hp : s.found_in_pch = true)
    (hc : s.found_in_chs = true) : smilesStep o s = s := by
  unfold smilesStep
  split
  · dsimp only
    rw [hp, hc]
    simp
    show AnnState.mk s.ent true true s.log
      = AnnState.mk s.ent s.found_in_pch s.found_in_chs s.log
    rw [hp, hc]
  · rfl

theorem inchiStep_noop (o : Oracle) (s : AnnState) (hp : s.found_in_pch = true)
    (hc : s.found_in_chs = true) : inchiStep o s = s := by
  unfold inchiStep
  split
  · dsimp only
    rw [hp, hc]
    simp
    show AnnState.mk s.ent true true s.log
      = AnnState.mk s.ent s.found_in_pch s.found_in_chs s.log
    rw [hp, hc]
  · rfl

theorem formulaStep_noop (o : Oracle) (s : AnnState) (hp : s.found_in_pch = true)
    (hc : s.found_in_chs = true) : formulaStep o s = s := by
  unfold formulaStep
  dsimp only
  rw [hp, hc]
  simp
  show AnnState.mk s.ent true true s.log
    = AnnState.mk s.ent s.found_in_pch s.found_in_chs s.log
  rw [hp, hc]

theorem elseBranch_noop (o : Oracle) (s : AnnState) (hp : s.found_in_pch = true)
    (hc : s.found_in_chs = true) : elseBranch o s = s := by
  unfold elseBranch
  rw [pchNameStep_skip o s hp, chsNameStep_skip o s hc, smilesStep_noop o s hp hc,
      inchiStep_noop o s hp hc, formulaStep_noop o s hp hc]

theorem pchNameStep_fire (o : Oracle) (s : AnnState) (h : s.found_in_pch = false) :
    (pchNameStep o s).log =
      s.log ++ [⟨DBase.pch, SearchKind.name, pyOr s.ent.entity s.ent.abbreviation⟩] := by
  unfold pchNameStep
  split
  · rfl
  · rename_i hcond
    rw [h] at hcond
    rcases Bool.eq_false_or_eq_true s.found_in_chs with hcb | hcb <;>
      rw [hcb] at hcond <;> simp at hcond

theorem chsNameStep_fire (o : Oracle) (s : AnnState) (h : s.found_in_chs = false) :
    (chsNameStep o s).log =
      s.log ++ [⟨DBase.chs, SearchKind.name, pyOr s.ent.entity s.ent.abbreviation⟩] := by
  unfold chsNameStep
  split
  · rfl
  · rename_i hcond
    rw [h] at hcond
    rcases Bool.eq_false_or_eq_true s.found_in_pch with hpb | hpb <;>
      rw [hpb] at hcond <;> simp at hcond

theorem elseBranch_log_ne (o : Oracle) (s : AnnState)
    (h : s.found_in_pch = false ∨ s.found_in_chs = false) :
    (elseBranch o s).log ≠ s.log := by
  unfold elseBranch
  rcases h with hp | hc
  · obtain ⟨t2, h2⟩ := chsNameStep_log o (pchNameStep o s)
    obtain ⟨t3, h3⟩ := smilesStep_log o (chsNameStep o (pchNameStep o s))
    obtain ⟨t4, h4⟩ := inchiStep_log o (smilesStep o (chsNameStep o (pchNameStep o s)))
    obtain ⟨t5, h5⟩ :=
      formulaStep_log o (inchiStep o (smilesStep o (chsNameStep o (pchNameStep o s))))
    rw [h5, h4, h3, h2, pchNameStep_fire o s hp]
    intro hcontra
    have hlen := congrArg List.length hcontra
    simp only [List.length_append, List.length_cons, List.length_nil] at hlen
    omega
  · have hc1 : (pchNameStep o s).found_in_chs = false := by
      rw [pchNameStep_found_chs]; exact hc
    obtain ⟨t1, h1⟩ := pchNameStep_log o s
    obtain ⟨t3, h3⟩ := smilesStep_log o (chsNameStep o (pchNameStep o s))
    obtain ⟨t4, h4⟩ := inchiStep_log o (smilesStep o (chsNameStep o (pchNameStep o s)))
    obtain ⟨t5, h5⟩ :=
      formulaStep_log o (inchiStep o (smilesStep o (chsNameStep o (pchNameStep o s))))
    rw [h5, h4, h3, chsNameStep_fire o (pchNameStep o s) hc1, h1]
    intro hcontra
    have hlen := congrArg List.length hcontra
    simp only [List.length_append, List.length_cons, List.length_nil] at hlen
    omega

theorem onePass_log_change (o : Oracle) (s : AnnState) :
    (onePass o s).log ≠ s.log ↔
      (s.ent.inchikey ≠ "" ∨ ¬(s.found_in_pch = true ∧ s.found_in_chs = true)) := by
  constructor
  · intro hne
    by_contra hcon
    push_neg at hcon
    obtain ⟨hik, hp, hc⟩ := hcon
    apply hne
    unfold onePass
    rw [if_neg (not_not_intro hik), elseBranch_noop o s hp hc]
  · intro hcase
    unfold onePass
    by_cases hik : s.ent.inchikey ≠ ""
    · rw [if_pos hik]
      unfold inchikeyBranch
      rw [chsInchikeyStep_log, pchInchikeyStep_log]
      intro hcontra
      have hlen := congrArg List.length hcontra
      simp only [List.length_append, List.length_cons, List.length_nil] at hlen
      omega
    · rw [if_neg hik]
      have hflag : s.found_in_pch = false ∨ s.found_in_chs = false := by
        rcases hcase with h | h
        · exact absurd h hik
        · rcases Bool.eq_false_or_eq_true s.found_in_pch with hp | hp
          · rcases Bool.eq_false_or_eq_true s.found_in_chs with hcb | hcb
            · exact absurd ⟨hp, hcb⟩ h
            · exact Or.inr hcb
          · exact Or.inl hp
      exact elseBranch_log_ne o s hflag

theorem onePass_ids_ne (o : Oracle) (s : AnnState) :
    (s.ent.smiles ≠ "" → (onePass o s).ent.smiles ≠ "")
    ∧ (s.ent.inchi ≠ "" → (onePass o s).ent.inchi ≠ "")
    ∧ (s.ent.inchikey ≠ "" → (onePass o s).ent.inchikey ≠ "") := by
  unfold onePass inchikeyBranch elseBranch
  split
  · obtain ⟨p1, p2, p3⟩ := pchInchikeyStep_ids_ne o s
    obtain ⟨q1, q2, q3⟩ := chsInchikeyStep_ids_ne o (pchInchikeyStep o s)
    exact ⟨fun h => q1 (p1 h), fun h => q2 (p2 h), fun h => q3 (p3 h)⟩
  · obtain ⟨a1, a2, a3⟩ := pchNameStep_ids_ne o s
    obtain ⟨b1, b2, b3⟩ := chsNameStep_ids_ne o (pchNameStep o s)
    obtain ⟨c1, c2, c3, -, -⟩ := smilesStep_ids o (chsNameStep o (pchNameStep o s))
    obtain ⟨d1, d2, d3, -, -⟩ :=
      inchiStep_ids o (smilesStep o (chsNameStep o (pchNameStep o s)))
    obtain ⟨f1, f2, f3, -, -⟩ :=
      formulaStep_ids o (inchiStep o (smilesStep o (chsNameStep o (pchNameStep o s))))
    refine ⟨fun h => ?_, fun h => ?_, fun h => ?_⟩
    · rw [f1, d1, c1]; exact b1 (a1 h)
    · rw [f2, d2, c2]; exact b2 (a2 h)
    · rw [f3, d3, c3]; exact b3 (a3 h)

theorem annotateEnt_ids_ne (o : Oracle) (e : Ent) :
    (e.smiles ≠ "" → (annotateEnt o e).ent.smiles ≠ "")
    ∧ (e.inchi ≠ "" → (annotateEnt o e).ent.inchi ≠ "")
    ∧ (e.inchikey ≠ "" → (annotateEnt o e).ent.inchikey ≠ "") := by
  obtain ⟨a1, a2, a3⟩ := onePass_ids_ne o (initAnnState e)
  obtain ⟨b1, b2, b3⟩ := onePass_ids_ne o (onePass o (initAnnState e))
  unfold annotateEnt
  dsimp only
  split
  · exact ⟨fun h => a1 h, fun h => a2 h, fun h => a3 h⟩
  · exact ⟨fun h => b1 (a1 h), fun h => b2 (a2 h), fun h => b3 (a3 h)⟩

/-- C1: during annotation of one entity whose inchikey field is non-empty,
the reconciler issues only InChIKey searches to the two databases — no
search by name, SMILES, InChI, or formula is ever performed in either
database in any reconciliation pass. -/
theorem inchikey_only_searches (o : Oracle) (e : Ent) (h : e.inchikey ≠ "") :
    ∀ ev ∈ (annotateEnt o e).log, ev.kind = SearchKind.inchikey := by
  have hpass : onePass o (initAnnState e) = inchikeyBranch o (initAnnState e) := by
    unfold onePass
    rw [if_pos (show (initAnnState e).ent.inchikey ≠ "" from h)]
  have hbreak : (!(onePass o (initAnnState e)).found_in_pch
      && !(onePass o (initAnnState e)).found_in_chs) = true := by
    rw [hpass]; rfl
  have hfinal : annotateEnt o e = inchikeyBranch o (initAnnState e) := by
    unfold annotateEnt
    dsimp only
    rw [if_pos hbreak, hpass]
  have hlog : (inchikeyBranch o (initAnnState e)).log =
      [⟨DBase.pch, SearchKind.inchikey, (initAnnState e).ent.inchikey⟩,
       ⟨DBase.chs, SearchKind.inchikey,
         (pchInchikeyStep o (initAnnState e)).ent.inchikey⟩] := rfl
  intro ev hev
  rw [hfinal, hlog] at hev
  simp only [List.mem_cons, List.not_mem_nil, or_false] at hev
  rcases hev with rfl | rfl <;> rfl

theorem inchikey_only_searches_witness :
    entWithIK.inchikey ≠ ""
    ∧ ∀ ev ∈ (annotateEnt oracleEmpty entWithIK).log, ev.kind = SearchKind.inchikey :=
  ⟨by decide, inchikey_only_searches oracleEmpty entWithIK (by decide)⟩

/-- C2: throughout reconciliation of one entity, each of smiles, inchi and
inchikey, once non-empty, never returns to the empty string: a unique hit
whose corresponding value is empty leaves the existing value unchanged
(`value or ent[field]`), and zero- or multiple-result hits never modify
these three fields at all. -/
theorem identifiers_never_regress (o : Oracle) (e : Ent) (s i k : String)
    (c : Bool) (rsP : List PchCompound) (rsC : List ChsCompound)
    (hP : rsP.length ≠ 1) (hC : rsC.length ≠ 1) :
    ((e.smiles ≠ "" → (annotateEnt o e).ent.smiles ≠ "")
      ∧ (e.inchi ≠ "" → (annotateEnt o e).ent.inchi ≠ "")
      ∧ (e.inchikey ≠ "" → (annotateEnt o e).ent.inchikey ≠ ""))
    ∧ ((s = "" → (updIdentifiers e s i k).smiles = e.smiles)
      ∧ (i = "" → (updIdentifiers e s i k).inchi = e.inchi)
      ∧ (k = "" → (updIdentifiers e s i k).inchikey = e.inchikey))
    ∧ (idsOf (pchIkUpdate e c rsP) = idsOf e
      ∧ idsOf (chsIkUpdate e c rsC) = idsOf e
      ∧ idsOf (pchNameUpdate e c rsP) = idsOf e
      ∧ idsOf (chsNameUpdate e c rsC) = idsOf e) :=
  ⟨annotateEnt_ids_ne o e, updIdentifiers_keep e s i k,
   pchIkUpdate_ids_multi e c rsP hP, chsIkUpdate_ids_multi e c rsC hC,
   pchNameUpdate_ids_multi e c rsP hP, chsNameUpdate_ids_multi e c rsC hC⟩

theorem identifiers_never_regress_witness :
    (([] : List PchCompound).length ≠ 1 ∧ ([] : List ChsCompound).length ≠ 1)
    ∧ (((entAllIds.smiles ≠ "" → (annotateEnt oracleEmpty entAllIds).ent.smiles ≠ "")
        ∧ (entAllIds.inchi ≠ "" → (annotateEnt oracleEmpty entAllIds).ent.inchi ≠ "")
        ∧ (entAllIds.inchikey ≠ "" → (annotateEnt oracleEmpty entAllIds).ent.inchikey ≠ ""))
      ∧ (("" = "" → (updIdentifiers entAllIds "" "" "").smiles = entAllIds.smiles)
        ∧ ("" = "" → (updIdentifiers entAllIds "" "" "").inchi = entAllIds.inchi)
        ∧ ("" = "" → (updIdentifiers entAllIds "" "" "").inchikey = entAllIds.inchikey))
      ∧ (idsOf (pchIkUpdate entAllIds false []) = idsOf entAllIds
        ∧ idsOf (chsIkUpdate entAllIds false []) = idsOf entAllIds
        ∧ idsOf (pchNameUpdate entAllIds false []) = idsOf entAllIds
        ∧ idsOf (chsNameUpdate entAllIds false []) = idsOf entAllIds)) :=
  ⟨⟨by decide, by decide⟩,
   identifiers_never_regress oracleEmpty entAllIds "" "" "" false [] []
     (by decide) (by decide)⟩

/-- C3 counterexample: an entity without an InChIKey against databases that
both return a unique name hit whose structure fields are all empty.  Pass 1
marks both databases found, so the claimed iff says pass 2 performs
searches; but pass 2 issues no search at all — the final log equals the
pass-1 log. -/
theorem pass2_counterexample :
    entNoIds.inchikey = ""
    ∧ (onePass oracleBothNameHit (initAnnState entNoIds)).found_in_pch = true
    ∧ (onePass oracleBothNameHit (initAnnState entNoIds)).found_in_chs = true
    ∧ (annotateEnt oracleBothNameHit entNoIds).log =
        (onePass oracleBothNameHit (initAnnState entNoIds)).log :=
  ⟨rfl, rfl, rfl, rfl⟩

/-- C3 (amended): for an entity without an InChIKey, the loop breaks after
pass 1 (before any pass-2 search) exactly when neither database was found;
otherwise pass 2 runs, and it issues at least one search if and only if the
entity's InChIKey became non-empty during pass 1 or not both databases were
found — in particular, when both databases were found and the InChIKey is
still empty, pass 2 runs but issues no search. -/
theorem pass2_search_characterization (o : Oracle) (e : Ent)
    (h : e.inchikey = "") :
    ((onePass o (initAnnState e)).found_in_pch = false
        ∧ (onePass o (initAnnState e)).found_in_chs = false
      → annotateEnt o e = onePass o (initAnnState e))
    ∧ (((onePass o (initAnnState e)).found_in_pch = true
        ∨ (onePass o (initAnnState e)).found_in_chs = true)
      → annotateEnt o e = onePass o (onePass o (initAnnState e))
        ∧ ((annotateEnt o e).log ≠ (onePass o (initAnnState e)).log ↔
            ((onePass o (initAnnState e)).ent.inchikey ≠ ""
              ∨ ¬((onePass o (initAnnState e)).found_in_pch = true
                  ∧ (onePass o (initAnnState e)).found_in_chs = true)))) := by
  constructor
  · intro hflags
    obtain ⟨hp, hc⟩ := hflags
    unfold annotateEnt
    dsimp only
    rw [hp, hc]
    simp
  · intro hor
    have hcond : (!(onePass o (initAnnState e)).found_in_pch
        && !(onePass o (initAnnState e)).found_in_chs) = false := by
      rcases hor with h1 | h1 <;> rw [h1] <;> simp
    have heq : annotateEnt o e = onePass o (onePass o (initAnnState e)) := by
      unfold annotateEnt
      dsimp only
      rw [hcond]
      simp
    refine ⟨heq, ?_⟩
    rw [heq]
    exact onePass_log_change o (onePass o (initAnnState e))

theorem pass2_search_characterization_witness :
    entNoIds.inchikey = ""
    ∧ (((onePass oracleBothNameHit (initAnnState entNoIds)).found_in_pch = false
          ∧ (onePass oracleBothNameHit (initAnnState entNoIds)).found_in_chs = false
        → annotateEnt oracleBothNameHit entNoIds
            = onePass oracleBothNameHit (initAnnState entNoIds))
      ∧ (((onePass oracleBothNameHit (initAnnState entNoIds)).found_in_pch = true
          ∨ (onePass oracleBothNameHit (initAnnState entNoIds)).found_in_chs = true)
        → annotateEnt oracleBothNameHit entNoIds
            = onePass oracleBothNameHit (onePass oracleBothNameHit (initAnnState entNoIds))
          ∧ ((annotateEnt oracleBothNameHit entNoIds).log
                ≠ (onePass oracleBothNameHit (initAnnState entNoIds)).log ↔
              ((onePass oracleBothNameHit (initAnnState entNoIds)).ent.inchikey ≠ ""
                ∨ ¬((onePass oracleBothNameHit (initAnnState entNoIds)).found_in_pch = true
                    ∧ (onePass oracleBothNameHit (initAnnState entNoIds)).found_in_chs
                        = true))))) :=
  ⟨rfl, pass2_search_characterization oracleBothNameHit entNoIds rfl⟩

end Molminer
